import Mathlib

/-!
Verification development for the ODD-Sth graph-kernel core
(`grakel/kernels/odd_sth.py`).

The Python module is shallowly embedded below.  Python dictionaries are
modelled as insertion-ordered association lists without duplicate keys
(lookup finds the first matching key; insertion updates in place when the
key is present and appends otherwise, exactly the observable behaviour of
a CPython 3.7+ dict).  Python exceptions are modelled by an `Except`
monad over an explicit error type; the extra `noFuel` marker is used for
loops whose bound is supplied as explicit fuel (a run that returns `.ok`
never depended on the fuel being exhausted).  Integer-valued data uses
`Nat`/`Int`; all counters in the source are non-negative Python ints.
-/

namespace OddSth

/-- Python exception outcomes relevant to the embedded code.  `noFuel` is a
modelling artefact marking loop-fuel exhaustion, never a Python behaviour;
`typeError` also stands in for Python `AttributeError` on a wrong-typed
receiver. -/
inductive PyExc where
  | valueError (msg : String)
  | keyError
  | indexError
  | typeError
  | noFuel
deriving DecidableEq, Repr

/-- Decidable equality of `Except` results, for evaluation theorems. -/
instance exceptDecEq [DecidableEq e] [DecidableEq a] : DecidableEq (Except e a) := fun x y =>
  match x, y with
  | .ok u, .ok v =>
    if h : u = v then .isTrue (by rw [h]) else .isFalse (by intro hh; cases hh; exact h rfl)
  | .error u, .error v =>
    if h : u = v then .isTrue (by rw [h]) else .isFalse (by intro hh; cases hh; exact h rfl)
  | .ok _, .error _ => .isFalse (by intro hh; cases hh)
  | .error _, .ok _ => .isFalse (by intro hh; cases hh)

/-- First-match lookup in an association list (Python `d[k]` /  `k in d`). -/
def dlookup [DecidableEq α] : List (α × β) → α → Option β
  | [], _ => none
  | (k, v) :: rest, a => if k = a then some v else dlookup rest a

/-- Python `d[k] = v`: update in place if the key exists, else append. -/
def dinsert [DecidableEq α] : List (α × β) → α → β → List (α × β)
  | [], a, b => [(a, b)]
  | (k, v) :: rest, a, b =>
    if k = a then (k, b) :: rest else (k, v) :: dinsert rest a b

/-- Python `d.pop(k)`: remove the first entry with the given key. -/
def dremove [DecidableEq α] : List (α × β) → α → List (α × β)
  | [], _ => []
  | (k, v) :: rest, a => if k = a then rest else (k, v) :: dremove rest a

/-- Key list of a dict, in insertion order (Python `d.keys()`). -/
def dkeys : List (α × β) → List α := List.map Prod.fst

/-- Python `k in d`. -/
def dcontains [DecidableEq α] (d : List (α × β)) (a : α) : Bool :=
  (dlookup d a).isSome

/-!
Stable sorting.  Python `list.sort(key=...)` is a stable sort by the key's
`<`/`≤` order; tuple keys compare lexicographically.  The embedded sorts
first resolve every element's key through the relevant dicts (raising
`KeyError` when one is missing, as CPython does while precomputing keys),
then apply a stable insertion sort on `(key, element)` pairs.  Keys in this
module are always a rank/label pair; a sort whose Python key is a bare
label uses the order-preserving injection `label to (0, label)`.
-/

/-- Lexicographic code-point comparison of char lists, structurally
recursive so that concrete runs reduce inside the kernel; this is the
order CPython uses on strings. -/
def charListLe : List Char → List Char → Bool
  | [], _ => true
  | _ :: _, [] => false
  | a :: as, b :: bs =>
    if a.toNat = b.toNat then charListLe as bs else decide (a.toNat < b.toNat)

/-- Python `s1 <= s2` on strings (code-point lexicographic). -/
def strLeB (a b : String) : Bool := charListLe a.data b.data

/-- Boolean lexicographic `le` on (rank, label) sort keys, matching Python
tuple comparison. -/
def keyLeB (a b : Int × String) : Bool :=
  decide (a.1 < b.1) || (decide (a.1 = b.1) && strLeB a.2 b.2)

/-- Stable ordered insert: the new element goes before the first existing
element it is `le`-related to (so after all equal keys already present
when used in `insSort`). -/
def insOrdered (le : α → α → Bool) (a : α) : List α → List α
  | [] => [a]
  | b :: bs => if le a b then a :: b :: bs else b :: insOrdered le a bs

/-- Stable insertion sort (head elements inserted into the sorted tail;
with a `le`-style comparator this is stable, matching Python). -/
def insSort (le : α → α → Bool) : List α → List α
  | [] => []
  | a :: rest => insOrdered le a (insSort le rest)

/-- Resolve the sort key of every element before sorting, as CPython
precomputes `key(x)` for all elements (a failed lookup inside the key
function raises `KeyError`). -/
def resolveKeyed (keyOf : Nat → Option (Int × String)) :
    List Nat → Except PyExc (List ((Int × String) × Nat))
  | [] => .ok []
  | x :: rest =>
    match keyOf x with
    | none => .error .keyError
    | some k => (resolveKeyed keyOf rest).map (fun l => (k, x) :: l)

/-- Comparator on resolved (key, element) pairs. -/
def pairLe (p q : (Int × String) × Nat) : Bool := keyLeB p.1 q.1

/-- Python `sorted(xs, key=keyOf)` / `xs.sort(key=keyOf)` for the key shapes
used in this module. -/
def sortByKey (keyOf : Nat → Option (Int × String)) (xs : List Nat) :
    Except PyExc (List Nat) :=
  (resolveKeyed keyOf xs).map (fun l => (insSort pairLe l).map Prod.snd)

/-!
The external graph collaborator: the embedded core only uses vertex
enumeration, neighbor enumeration and the node-label dict
(`get_vertices`, `neighbors`, `get_labels` in the source).
-/

structure PyGraph where
  vertices : List Nat
  neighbors : Nat → List Nat
  labels : List (Nat × String)

/-!
DAG Extractor: `dag(v, g, h=None)` from the source, lines 109-150.
The queue-driven BFS is written with explicit fuel; one unit of fuel is
one iteration of the `while` loop.  A `.error .noFuel` result only means
the chosen fuel bound was too small, never a Python outcome.
-/

/-- One step of the inner `for n in g.neighbors(u)` loop of `dag`:
state is (queue, vertices-with-levels, edges). -/
def dagNeighborStep (u : Nat) (level : Nat)
    (s : List (Nat × Nat) × List (Nat × Nat) × List (Nat × List Nat)) (n : Nat) :
    List (Nat × Nat) × List (Nat × Nat) × List (Nat × List Nat) :=
  let (q, verts, edges) := s
  match dlookup verts n with
  | none =>
    (q ++ [(n, level + 1)], dinsert verts n (level + 1),
     dinsert edges u ((dlookup edges u).getD [] ++ [n]))
  | some ln =>
    if level + 1 ≤ ln then
      (q, verts, dinsert edges u ((dlookup edges u).getD [] ++ [n]))
    else
      (q, verts, edges)

/-- The `while len(q)>0` loop of `dag`.  `h = -1` encodes `h is None`. -/
def dagLoop (g : PyGraph) (h : Int) :
    Nat → List (Nat × Nat) → List (Nat × Nat) → List (Nat × List Nat) →
    Except PyExc (List (Nat × Nat) × List (Nat × List Nat))
  | _, [], verts, edges => .ok (verts, edges)
  | 0, _ :: _, _, _ => .error .noFuel
  | fuel + 1, (u, level) :: q, verts, edges =>
    if (level : Int) = h then .ok (verts, edges)
    else
      let edges1 := if dcontains edges u then edges else dinsert edges u []
      let s := (g.neighbors u).foldl (dagNeighborStep u level) (q, verts, edges1)
      dagLoop g h fuel s.1 s.2.1 s.2.2

/-- The body of `dag` after validating `h`, keeping the vertex-level dict
(the source finally discards levels via `set(vertices.keys())`). -/
def dagRaw (v : Nat) (g : PyGraph) (hIn : Option Int) (fuel : Nat) :
    Except PyExc (List (Nat × Nat) × List (Nat × List Nat)) :=
  match hIn with
  | none => dagLoop g (-1) fuel [(v, 0)] [(v, 0)] []
  | some h0 =>
    if h0 ≤ 0 then .error (.valueError "depth of visits must be bigger than zero")
    else dagLoop g h0 fuel [(v, 0)] [(v, 0)] []

/-- Source `dag`: returns the vertex set (as its key list) and the edges. -/
def dag (v : Nat) (g : PyGraph) (hIn : Option Int) (fuel : Nat) :
    Except PyExc (List Nat × List (Nat × List Nat)) :=
  (dagRaw v g hIn fuel).map (fun p => (dkeys p.1, p.2))

/-!
Canonical Orderer: `odd(vertices, edges, labels)` from the source, lines
152-219.  Kahn's algorithm with ranks counting down from `len(vertices)`,
frontier sorted by label each iteration, then every edge list sorted by
`(rank, label)`.
-/

/-- The vertex collection handed to `odd`: a Python `set`, a `dict`
(only its keys are consumed by `odd`), or an unsupported type. -/
inductive PyVerts where
  | vset (s : List Nat)
  | vdict (keys : List Nat)
  | other
deriving Repr

/-- In-degree computation of `odd` (Step 1): iterate all edge lists,
counting each target occurrence. -/
def addCounts : List (Nat × Nat) → List Nat → List (Nat × Nat)
  | ind, [] => ind
  | ind, v :: rest =>
    match dlookup ind v with
    | none => addCounts (dinsert ind v 1) rest
    | some c => addCounts (dinsert ind v (c + 1)) rest

def computeIndegrees : List (Nat × List Nat) → List (Nat × Nat)
  | [] => []
  | (_, e) :: rest => computeIndegrees' (addCounts [] e) rest
where computeIndegrees' (acc : List (Nat × Nat)) : List (Nat × List Nat) → List (Nat × Nat)
  | [] => acc
  | (_, e) :: rest => computeIndegrees' (addCounts acc e) rest

/-- The `for k in edges[e]` body of the Kahn loop: decrement in-degrees,
moving vertices that reach zero onto the queue. -/
def processChildren : List Nat → List Nat → List (Nat × Nat) → List Nat × List (Nat × Nat)
  | [], q, ind => (q, ind)
  | k :: rest, q, ind =>
    match dlookup ind k with
    | none => processChildren rest q ind
    | some c =>
      if c = 1 then processChildren rest (q ++ [k]) (dremove ind k)
      else processChildren rest q (dinsert ind k (c - 1))

/-- Sort key `labels[x]` of the frontier sort `q.sort(key=lambda x: labels[x])`,
injected into the common key shape. -/
def labelKey (labels : List (Nat × String)) (x : Nat) : Option (Int × String) :=
  (dlookup labels x).map (fun s => ((0 : Int), s))

/-- Sort key `(ordering[x], labels[x])`. -/
def rankLabelKey (ordering : List (Nat × Int)) (labels : List (Nat × String)) (x : Nat) :
    Option (Int × String) := do
  let r ← dlookup ordering x
  let s ← dlookup labels x
  some (r, s)

/-- The `while len(q)>0` loop of `odd`; one fuel unit per iteration. -/
def oddLoop (labels : List (Nat × String)) (E : List (Nat × List Nat)) :
    Nat → List Nat → List (Nat × Nat) → List (Nat × Int) → Int →
    Except PyExc (List (Nat × Int))
  | _, [], _, ordering, _ => .ok ordering
  | 0, _ :: _, _, _, _ => .error .noFuel
  | fuel + 1, q@(_ :: _), ind, ordering, vis =>
    match sortByKey (labelKey labels) q with
    | .error e => .error e
    | .ok [] => .ok ordering      -- unreachable: sorting preserves length
    | .ok (e :: qrest) =>
      let ordering1 := dinsert ordering e vis
      match dlookup E e with
      | none => .error .keyError  -- `edges[e]` with a missing key
      | some children =>
        let s := processChildren children qrest ind
        oddLoop labels E fuel s.1 s.2 ordering1 (vis - 1)

/-- Final edge sorting of `odd`: for every key in insertion order,
`edges[k].sort(key=lambda x: (ordering[x], labels[x]))` in place. -/
def sortEdges (ordering : List (Nat × Int)) (labels : List (Nat × String)) :
    List (Nat × List Nat) → Except PyExc (List (Nat × List Nat))
  | [] => .ok []
  | (k, l) :: rest =>
    match sortByKey (rankLabelKey ordering labels) l with
    | .error e => .error e
    | .ok l2 => (sortEdges ordering labels rest).map (fun r => (k, l2) :: r)

/-- Output tuple of `odd`. -/
structure OddOut where
  vertices : List Nat
  edges : List (Nat × List Nat)
  ordering : List (Nat × Int)
  labels : List (Nat × String)
deriving DecidableEq, Repr

/-- Source `odd`: type dispatch on the vertex collection, in-degree
computation, Kahn loop, then in-place edge sorting. -/
def odd (vertices : PyVerts) (E : List (Nat × List Nat))
    (labels : List (Nat × String)) (fuel : Nat) : Except PyExc OddOut :=
  match vertices with
  | .other => .error (.valueError "unsupported vertices type")
  | .vset vl => oddBody vl
  | .vdict keys => oddBody keys
where oddBody (vl : List Nat) : Except PyExc OddOut :=
  let ind := computeIndegrees E
  let zero := vl.filter (fun x => !(dcontains ind x))
  match oddLoop labels E fuel zero ind [] (vl.length : Int) with
  | .error e => .error e
  | .ok ordering =>
    match sortEdges ordering labels E with
    | .error e => .error e
    | .ok E2 => .ok ⟨vl, E2, ordering, labels⟩

/-!
Subtree Canonicalizer: `hash_trees(tree)` from the source, lines 221-257.
Vertices are visited in `(ordering, label)` order; a vertex with no
outgoing edges gets weight 0 and identity `str(label)`; otherwise the
weight accumulates `1 + weight[child]` over the sorted child list and the
identity is `label + "(" + ",".join(child identities) + ")"`.  Labels in
this embedding are strings, so Python `str(label)` is the label itself.
-/

/-- Per-vertex record `[depth-weight, frequency, identity]` of `hash_trees`. -/
abbrev HashVal := Nat × Nat × String

/-- Append `v` to `vertices_hash_map[key]`, creating the bucket if absent. -/
def happend (hmap : List (String × List Nat)) (key : String) (v : Nat) :
    List (String × List Nat) :=
  dinsert hmap key ((dlookup hmap key).getD [] ++ [v])

/-- The `for n in edge[v]` accumulation: `d += 1 + vertices[n][0]` and
`neighbors_ids.append(vertices[n][2])`; a missing child is a `KeyError`. -/
def childAccum (verts : List (Nat × HashVal)) :
    List Nat → Nat → List String → Except PyExc (Nat × List String)
  | [], d, ids => .ok (d, ids)
  | n :: rest, d, ids =>
    match dlookup verts n with
    | none => .error .keyError
    | some val => childAccum verts rest (d + (1 + val.1)) (ids ++ [val.2.2])

/-- The `for v in v_ordered` loop of `hash_trees`. -/
def hashLoop (edge : List (Nat × List Nat)) (labels : List (Nat × String)) :
    List Nat → List (Nat × HashVal) → List (String × List Nat) →
    Except PyExc (List (Nat × HashVal) × List (String × List Nat))
  | [], verts, hmap => .ok (verts, hmap)
  | v :: rest, verts, hmap =>
    match dlookup labels v with
    | none => .error .keyError
    | some lb =>
      match dlookup edge v with
      | none =>
        hashLoop edge labels rest (dinsert verts v (0, 1, lb)) (happend hmap lb v)
      | some [] =>
        hashLoop edge labels rest (dinsert verts v (0, 1, lb)) (happend hmap lb v)
      | some l =>
        match childAccum verts l 0 [] with
        | .error e => .error e
        | .ok (d, ids) =>
          let ID := lb ++ "(" ++ String.intercalate "," ids ++ ")"
          hashLoop edge labels rest (dinsert verts v (d, 1, ID)) (happend hmap ID v)

/-- Output triple of `hash_trees`. -/
structure HashOut where
  vertices : List (Nat × HashVal)
  hashmap : List (String × List Nat)
  v_ordered : List Nat
deriving DecidableEq, Repr

/-- Source `hash_trees`: sort the vertex set by `(ordering[x], labels[x])`,
then canonicalize bottom-up in that order. -/
def hash_trees (tree : OddOut) : Except PyExc HashOut :=
  match sortByKey (rankLabelKey tree.ordering tree.labels) tree.vertices with
  | .error e => .error e
  | .ok v_ordered =>
    match hashLoop tree.edges tree.labels v_ordered [] [] with
    | .error e => .error e
    | .ok (verts, hmap) => .ok ⟨verts, hmap, v_ordered⟩

/-- Source `make_dag_odd(v, g, h)`: note the source calls `dag(v, g, h=None)`
on line 106, so the height argument it receives is never forwarded. -/
def make_dag_odd (v : Nat) (g : PyGraph) (h : Option Int) (fuel : Nat) :
    Except PyExc OddOut :=
  match dag v g none fuel with
  | .error e => .error e
  | .ok (vertices, edges) => odd (PyVerts.vset vertices) edges g.labels fuel

/-!
Big-DAG Merger: `big_dag_append(dag, big_dag, merge_features)` from the
source, lines 259-333.  A frequency slot holds either a Python int
(merge mode) or a Python list of ints (vector mode); the tagged type
`Freq` mirrors this, and the dynamic type errors Python would raise on a
mode mismatch are modelled with `.typeError`.  The vertex record of a
node is `[slot0, frequency, identity]`; note that on allocation the
source stores `vertices[q][1]` (the occurrence count) into slot 0, not
the depth weight `vertices[q][0]`.
-/

/-- Scalar (merge-mode) or vector (per-graph) frequency. -/
inductive Freq where
  | scalar (n : Nat)
  | vec (l : List Nat)
deriving DecidableEq, Repr

/-- Python `x + y` on two frequency slots (`int + int`, or list
concatenation for `list + list`; mixing raises `TypeError`). -/
def freqAdd : Freq → Freq → Except PyExc Freq
  | .scalar a, .scalar b => .ok (.scalar (a + b))
  | .vec a, .vec b => .ok (.vec (a ++ b))
  | _, _ => .error .typeError

/-- Python `x[-1] += y` on a frequency slot: needs a non-empty list on the
left and an int on the right. -/
def freqAddLast : Freq → Freq → Except PyExc Freq
  | .vec l, .scalar b =>
    match l.getLast? with
    | none => .error .indexError
    | some x => .ok (.vec (l.dropLast ++ [x + b]))
  | .vec _, .vec _ => .error .typeError
  | .scalar _, _ => .error .typeError

/-- Python `x.append(0)` on a frequency slot (AttributeError on an int,
modelled as `.typeError`). -/
def freqAppendZero : Freq → Except PyExc Freq
  | .vec l => .ok (.vec (l ++ [0]))
  | .scalar _ => .error .typeError

/-- The single-root canonical DAG tuple handed to `big_dag_append`:
`(vertices, vertices_hash_map, v_ordered, edges, labels)`. -/
structure SingleDag where
  vertices : List (Nat × (Freq × Freq × String))
  hashmap : List (String × List Nat)
  v_ordered : List Nat
  edges : List (Nat × List Nat)
  labels : List (Nat × String)
deriving DecidableEq, Repr

/-- The accumulated Big DAG `(D_vertices, D_hash_map, D_edges, D_labels)`. -/
structure BigDag where
  D_vertices : List (Nat × (Freq × Freq × String))
  D_hash_map : List (String × List Nat)
  D_edges : List (Nat × List Nat)
  D_labels : List (Nat × String)
deriving DecidableEq, Repr

/-- Lift a `hash_trees` vertex record into the heterogeneous record shape
used by the merger (Python keeps both in one list; the typed embedding
tags the two int-or-list slots). -/
def toFreqVal (v : HashVal) : Freq × Freq × String :=
  (Freq.scalar v.1, Freq.scalar v.2.1, v.2.2)

/-- View of a `hash_trees` output together with the sorted edges and the
labels as the 5-tuple `tuple(hash_trees(dag_odd)) + (dag_odd[1], dag_odd[3])`
built on source line 86. -/
def toSingleDag (h : HashOut) (edges : List (Nat × List Nat))
    (labels : List (Nat × String)) : SingleDag :=
  ⟨h.vertices.map (fun p => (p.1, toFreqVal p.2)), h.hashmap, h.v_ordered, edges, labels⟩

/-- The vector-mode preamble of `big_dag_append` on an existing Big DAG:
append a zero slot to every node frequency; `nf` is the length of the
first node frequency after the append, or 1 when there are no nodes. -/
def padAll : List (Nat × (Freq × Freq × String)) →
    Except PyExc (List (Nat × (Freq × Freq × String)))
  | [] => .ok []
  | (k, (s0, fr, id)) :: rest =>
    match freqAppendZero fr with
    | .error e => .error e
    | .ok fr2 =>
      match padAll rest with
      | .error e => .error e
      | .ok rest2 => .ok ((k, (s0, fr2, id)) :: rest2)

/-- Length of the first padded frequency vector (`nf`), 1 for an empty dict. -/
def nfOf (l : List (Nat × (Freq × Freq × String))) : Nat :=
  match l with
  | [] => 1
  | (_, (_, .vec fl, _)) :: _ => fl.length
  | (_, (_, .scalar _, _)) :: _ => 0   -- unreachable after a successful padAll

/-- The `for c in edges[q]` translation of child identities to existing
global node indices, with the `v_nodes` duplicate filter. -/
def buildEdges (verts : List (Nat × (Freq × Freq × String)))
    (hmap : List (String × List Nat)) :
    List Nat → List Nat → Except PyExc (List Nat)
  | [], acc => .ok acc
  | c :: rest, acc =>
    match dlookup verts c with
    | none => .error .keyError
    | some cv =>
      match dlookup hmap cv.2.2 with
      | none => buildEdges verts hmap rest acc
      | some nl =>
        match nl.head? with
        | none => .error .indexError
        | some node =>
          if node ∈ acc then buildEdges verts hmap rest acc
          else buildEdges verts hmap rest (acc ++ [node])

/-- The `for q in v_ordered` loop of `big_dag_append`; the extra `Nat`
is `nodes_idx`. -/
def bigLoop (dagArg : SingleDag) (merge : Bool) (nf : Nat) :
    List Nat → BigDag → Nat → Except PyExc (BigDag × Nat)
  | [], B, idx => .ok (B, idx)
  | q :: rest, B, idx =>
    match dlookup dagArg.vertices q with
    | none => .error .keyError
    | some val =>
      let key := val.2.2
      match dlookup B.D_hash_map key with
      | some nl =>
        match nl.head? with
        | none => .error .indexError
        | some node =>
          match dlookup B.D_vertices node with
          | none => .error .keyError
          | some cur =>
            match (if merge then freqAdd cur.2.1 val.2.1 else freqAddLast cur.2.1 val.2.1) with
            | .error e => .error e
            | .ok fr2 =>
              bigLoop dagArg merge nf rest
                { B with D_vertices := dinsert B.D_vertices node (cur.1, fr2, cur.2.2) } idx
      | none =>
        match dlookup dagArg.labels q with
        | none => .error .keyError
        | some lb =>
          match dlookup dagArg.edges q with
          | none => .error .keyError
          | some children =>
            match buildEdges dagArg.vertices B.D_hash_map children [] with
            | .error e => .error e
            | .ok d_edges =>
              match (if merge then .ok val.2.1
                     else match val.2.1 with
                          | .scalar n => .ok (.vec (List.replicate (nf - 1) 0 ++ [n]))
                          | .vec _ => .error .typeError :
                     Except PyExc Freq) with
              | .error e => .error e
              | .ok freq =>
                bigLoop dagArg merge nf rest
                  { D_vertices := dinsert B.D_vertices idx (val.2.1, freq, key),
                    D_hash_map := dinsert B.D_hash_map key [idx],
                    D_edges := dinsert B.D_edges idx d_edges,
                    D_labels := dinsert B.D_labels idx lb } (idx + 1)

/-- Source `big_dag_append`. -/
def big_dag_append (dagArg : SingleDag) (big : Option BigDag)
    (merge_features : Bool := true) : Except PyExc BigDag :=
  match big with
  | none =>
    match bigLoop dagArg merge_features 1 dagArg.v_ordered ⟨[], [], [], []⟩ 0 with
    | .error e => .error e
    | .ok (B, _) => .ok B
  | some B =>
    let idx := B.D_vertices.length
    if merge_features then
      match bigLoop dagArg true 1 dagArg.v_ordered B idx with
      | .error e => .error e
      | .ok (B2, _) => .ok B2
    else
      match padAll B.D_vertices with
      | .error e => .error e
      | .ok Dv =>
        match bigLoop dagArg false (nfOf Dv) dagArg.v_ordered { B with D_vertices := Dv } idx with
        | .error e => .error e
        | .ok (B2, _) => .ok B2

/-!
`make_big_dag(g, h)` from the source, lines 73-93: fold all per-root DAGs
of one graph into a merge-mode Big DAG, re-order it with `odd`, and return
the 5-tuple used as the `dag` argument of the next-level merge.
-/

/-- The `for v in g.get_vertices()` loop of `make_big_dag`. -/
def mbLoop (g : PyGraph) (h : Option Int) (fuel : Nat) :
    List Nat → Option BigDag → Except PyExc (Option BigDag)
  | [], big => .ok big
  | v :: rest, big =>
    match make_dag_odd v g h fuel with
    | .error e => .error e
    | .ok dag_odd =>
      match hash_trees dag_odd with
      | .error e => .error e
      | .ok hout =>
        match big_dag_append (toSingleDag hout dag_odd.edges dag_odd.labels) big true with
        | .error e => .error e
        | .ok B => mbLoop g h fuel rest (some B)

/-- Source `make_big_dag`; unpacking `big_dag[0]` when the graph had no
vertices is the Python `TypeError` on subscripting `None`. -/
def make_big_dag (g : PyGraph) (h : Option Int) (fuel : Nat) :
    Except PyExc SingleDag :=
  match mbLoop g h fuel g.vertices none with
  | .error e => .error e
  | .ok none => .error .typeError
  | .ok (some B) =>
    match odd (PyVerts.vdict (dkeys B.D_vertices)) B.D_edges B.D_labels fuel with
    | .error e => .error e
    | .ok o =>
      match sortByKey (rankLabelKey o.ordering B.D_labels) (dkeys B.D_vertices) with
      | .error e => .error e
      | .ok sortedKeys =>
        .ok ⟨B.D_vertices, B.D_hash_map, sortedKeys, o.edges, B.D_labels⟩

/-!
Kernel Matrix Reducer: `odd_sth_matrix(Graphs_x, Graphs_y, h)` from the
source, lines 24-70.  `C[v] = big2Dag[0][v][0]` and
`K[i,j] = sum of freq[v][i] * freq[v][j] * C[v]`; in self mode only pairs
`i <= j` are filled and the matrix is then symmetrized by
`np.triu(K) + np.triu(K, 1).T`.  Matrix entries are modelled as `Nat`
(numpy float64 holds these small integer counts exactly).
-/

/-- One kernel-sum term `big2Dag[0][v][1][i] * big2Dag[0][v][1][j] * C[v]`. -/
def kTerm (val : Freq × Freq × String) (i j : Nat) : Except PyExc Nat :=
  match val.1, val.2.1 with
  | .scalar c, .vec fv =>
    match fv.get? i, fv.get? j with
    | some fi, some fj => .ok (fi * fj * c)
    | _, _ => .error .indexError
  | _, _ => .error .typeError

/-- The `for v in C.keys()` accumulation for one matrix entry. -/
def kSum (i j : Nat) : List (Nat × (Freq × Freq × String)) → Nat → Except PyExc Nat
  | [], acc => .ok acc
  | (_, val) :: rest, acc =>
    match kTerm val i j with
    | .error e => .error e
    | .ok t => kSum i j rest (acc + t)

/-- Self-mode index pairs `[(i,j) for i in range(h_x) for j in range(i,h_x)]`. -/
def upperPairs (hx : Nat) : List (Nat × Nat) :=
  (List.range hx).flatMap (fun i => (List.range' i (hx - i)).map (fun j => (i, j)))

/-- Cross-mode index pairs `itertools.product(range(h_x, ng), range(0, h_x))`. -/
def crossPairs (hx ng : Nat) : List (Nat × Nat) :=
  (List.range' hx (ng - hx)).flatMap (fun i => (List.range hx).map (fun j => (i, j)))

/-- Python `np.zeros(shape=(rows, cols))` over the modelled entries. -/
def zerosMat (rows cols : Nat) : List (List Nat) :=
  List.replicate rows (List.replicate cols 0)

/-- Assignment `K[r, c] = val`; all assignments performed by the source are
in range, so the out-of-range case (numpy `IndexError`) is a no-op here. -/
def matSet (m : List (List Nat)) (r c : Nat) (val : Nat) : List (List Nat) :=
  match m.get? r with
  | none => m
  | some row => m.set r (row.set c val)

/-- The `for (i,j) in pairs` filling loop. -/
def fillK (B : BigDag) (offset : Nat) :
    List (Nat × Nat) → List (List Nat) → Except PyExc (List (List Nat))
  | [], m => .ok m
  | (i, j) :: rest, m =>
    match kSum i j B.D_vertices 0 with
    | .error e => .error e
    | .ok kv => fillK B offset rest (matSet m (i - offset) j kv)

/-- Matrix read with zero default (entries never assigned stay zero). -/
def getEntry (m : List (List Nat)) (r c : Nat) : Nat :=
  ((m.get? r).bind (fun row => row.get? c)).getD 0

/-- Python `np.triu(K) + np.triu(K, 1).T` pointwise. -/
def symmetrize (m : List (List Nat)) (hy hx : Nat) : List (List Nat) :=
  (List.range hy).map (fun r =>
    (List.range hx).map (fun c =>
      (if r ≤ c then getEntry m r c else 0) + (if c < r then getEntry m c r else 0)))

/-- The `for g in g_iter` fold building `big2Dag`. -/
def matLoop (h : Option Int) (fuel : Nat) :
    List PyGraph → Option BigDag → Except PyExc (Option BigDag)
  | [], big => .ok big
  | g :: rest, big =>
    match make_big_dag g h fuel with
    | .error e => .error e
    | .ok bd =>
      match big_dag_append bd big false with
      | .error e => .error e
      | .ok B => matLoop h fuel rest (some B)

/-- Source `odd_sth_matrix`. -/
def odd_sth_matrix (Graphs_x : List PyGraph) (Graphs_y : Option (List PyGraph))
    (h : Option Int) (fuel : Nat) : Except PyExc (List (List Nat)) :=
  let h_x := Graphs_x.length
  match Graphs_y with
  | none =>
    match matLoop h fuel Graphs_x none with
    | .error e => .error e
    | .ok none => .error .typeError
    | .ok (some B) =>
      match fillK B 0 (upperPairs h_x) (zerosMat h_x h_x) with
      | .error e => .error e
      | .ok K => .ok (symmetrize K h_x h_x)
  | some Gy =>
    let ng := h_x + Gy.length
    match matLoop h fuel (Graphs_x ++ Gy) none with
    | .error e => .error e
    | .ok none => .error .typeError
    | .ok (some B) =>
      fillK B h_x (crossPairs h_x ng) (zerosMat Gy.length h_x)

/-!
Concrete instances used by the evaluation theorems and witnesses below.
-/

/-- A chain graph on vertices 0..10 (ten edges), rooted at vertex 0. -/
def chainG : PyGraph :=
  ⟨List.range 11,
   fun n => (if n = 0 then [] else [n - 1]) ++ (if 10 ≤ n then [] else [n + 1]),
   (List.range 11).map (fun i => (i, toString i))⟩

/-- A three-vertex star: center 0 labelled "a", leaves 1 ("b") and 2 ("c"). -/
def starG : PyGraph :=
  ⟨[0, 1, 2], fun n => if n = 0 then [1, 2] else [0],
   [(0, "a"), (1, "b"), (2, "c")]⟩

/-- A single isolated vertex labelled "a". -/
def oneG : PyGraph := ⟨[0], fun _ => [], [(0, "a")]⟩

/-- The Big DAG `big2Dag` produced by the self-mode kernel run on `starG`
(value checked below by `c1_weight_is_count_not_depth`). -/
def starBig2 : BigDag :=
  ⟨[(0, Freq.scalar 2, Freq.vec [2], "c"),
    (1, Freq.scalar 2, Freq.vec [2], "b"),
    (2, Freq.scalar 1, Freq.vec [1], "a(b)"),
    (3, Freq.scalar 1, Freq.vec [1], "c(a(b))"),
    (4, Freq.scalar 1, Freq.vec [1], "a(c)"),
    (5, Freq.scalar 1, Freq.vec [1], "b(a(c))"),
    (6, Freq.scalar 1, Freq.vec [1], "a(c,b)")],
   [("c", [0]), ("b", [1]), ("a(b)", [2]), ("c(a(b))", [3]),
    ("a(c)", [4]), ("b(a(c))", [5]), ("a(c,b)", [6])],
   [(0, []), (1, []), (2, [1]), (3, [2]), (4, [0]), (5, [4]), (6, [0, 1])],
   [(0, "c"), (1, "b"), (2, "a"), (3, "c"), (4, "a"), (5, "b"), (6, "a")]⟩

/-- Depth weight of a node per the specification of claim C1: the sum over
the node's children of `1 + weight(child)`, 0 for leaves.  This definition
follows the spec wording (it is the quantity the spec says slot 0 of a
global node records); it is compared against what the code stores. -/
def specDepthWeight (E : List (Nat × List Nat)) : Nat → Nat → Nat
  | 0, _ => 0
  | fuel + 1, v =>
    match dlookup E v with
    | none => 0
    | some l => (l.map (fun c => 1 + specDepthWeight E fuel c)).sum

/-- The kernel entry the spec of claim C1 prescribes: sum over global
nodes of `freq[i] * freq[j] * depth-weight`. -/
def specKernelEntry (B : BigDag) (fuel i j : Nat) : Nat :=
  (B.D_vertices.map (fun p =>
    match p.2.2.1 with
    | .vec fv => fv.getD i 0 * fv.getD j 0 * specDepthWeight B.D_edges fuel p.1
    | .scalar _ => 0)).sum

/-!
Claim theorems.
-/

/-!
Claim C9: invariants of the BFS extraction.
-/

/-- A retained edge `u -> w` of an extracted edge map. -/
def edgeIn (E : List (Nat × List Nat)) (u w : Nat) : Prop :=
  ∃ l, dlookup E u = some l ∧ w ∈ l

/-- A nonempty directed path along retained edges. -/
inductive EdgePath (E : List (Nat × List Nat)) : Nat → Nat → Prop
  | single {u w : Nat} : edgeIn E u w → EdgePath E u w
  | cons {u w x : Nat} : edgeIn E u w → EdgePath E w x → EdgePath E u x

/-!
Claim C3: the bottom-up recurrence of the Subtree Canonicalizer.
-/

/-- Depth weights of a child list read from a canonicalizer vertex dict. -/
def childWeights (verts : List (Nat × HashVal)) (l : List Nat) : List Nat :=
  l.map (fun c => ((dlookup verts c).map (fun t => t.1)).getD 0)

/-- Identities of a child list read from a canonicalizer vertex dict. -/
def childIds (verts : List (Nat × HashVal)) (l : List Nat) : List String :=
  l.map (fun c => ((dlookup verts c).map (fun t => t.2.2)).getD "")

/-!
Claim C5: folding the same canonical DAG twice in merge mode.
-/

/-- Doubling of a frequency slot (`int + int`, or Python list
self-concatenation). -/
def doubleFreq : Freq → Freq
  | .scalar n => .scalar (2 * n)
  | .vec l => .vec (l ++ l)

/-- A two-node canonical DAG (root labelled "a" with one child "b") in the
5-tuple shape consumed by `big_dag_append`. -/
def dPair : SingleDag :=
  ⟨[(1, (Freq.scalar 0, Freq.scalar 1, "b")), (0, (Freq.scalar 1, Freq.scalar 1, "a(b)"))],
   [("b", [1]), ("a(b)", [0])], [1, 0], [(0, [1]), (1, [])], [(0, "a"), (1, "b")]⟩

/-- The Big DAG after folding `dPair` once in merge mode. -/
def b1Pair : BigDag :=
  ⟨[(0, (Freq.scalar 1, Freq.scalar 1, "b")), (1, (Freq.scalar 1, Freq.scalar 1, "a(b)"))],
   [("b", [0]), ("a(b)", [1])], [(0, []), (1, [0])], [(0, "b"), (1, "a")]⟩

/-- The Big DAG after folding `dPair` twice in merge mode. -/
def b2Pair : BigDag :=
  ⟨[(0, (Freq.scalar 1, Freq.scalar 2, "b")), (1, (Freq.scalar 1, Freq.scalar 2, "a(b)"))],
   [("b", [0]), ("a(b)", [1])], [(0, []), (1, [0])], [(0, "b"), (1, "a")]⟩

/-!
Claim C4: the Canonical Orderer ranks every child strictly below its
parent, so the canonicalization visit order processes children first.
The development follows Kahn's algorithm: `remaining ord w E` counts the
edge occurrences into `w` whose source has not yet been ranked.
-/

/-- Edge occurrences into `w` from sources not yet ranked in `ord`. -/
def remaining (ord : List (Nat × Int)) (w : Nat) : List (Nat × List Nat) → Nat
  | [] => 0
  | (k, l) :: rest =>
    (if (dlookup ord k).isNone then l.count w else 0) + remaining ord w rest

/-- Star-graph DAG edges: root 0 with children 1 and 2. -/
def c4E : List (Nat × List Nat) := [(0, [1, 2]), (1, []), (2, [])]

/-- Star-graph labels. -/
def c4L : List (Nat × String) := [(0, "a"), (1, "b"), (2, "c")]

/-- The Orderer output on the star graph. -/
def c4O : OddOut :=
  ⟨[0, 1, 2], [(0, [2, 1]), (1, []), (2, [])],
   [(0, 3), (1, 2), (2, 1)], [(0, "a"), (1, "b"), (2, "c")]⟩

/-- The Canonicalizer output on the star graph. -/
def c4H : HashOut :=
  ⟨[(2, (0, 1, "c")), (1, (0, 1, "b")), (0, (2, 1, "a(c,b)"))],
   [("c", [2]), ("b", [1]), ("a(c,b)", [0])], [2, 1, 0]⟩

/-!
Claim C10: in the non-None branch, `big_dag_append` unpacks the argument
tuple's four dictionaries and mutates those very objects in place
(`D_vertices[v][1].append(0)`, `D_vertices[node][1] += ...`,
`D_labels[nodes_idx] = ...`, `D_edges[nodes_idx] = ...`,
`D_hash_map[key] = [...]`, `D_vertices[nodes_idx] = [...]`), returning
the same objects.  The store-passing embedding models each Python dict
object as a reference into a typed store; every read and write of the
four dictionaries goes through the references, and the returned tuple is
the references the function received.
-/

/-- A reference to a Python dict object. -/
abbrev Ref := Nat

/-- Typed stores for the four dictionary objects of a Big DAG. -/
structure Heap where
  vcells : List (Ref × List (Nat × (Freq × Freq × String)))
  hcells : List (Ref × List (String × List Nat))
  ecells : List (Ref × List (Nat × List Nat))
  lcells : List (Ref × List (Nat × String))
deriving DecidableEq, Repr

/-- The four references unpacked from the `big_dag` argument tuple. -/
structure BigRefs where
  rv : Ref
  rh : Ref
  re : Ref
  rl : Ref
deriving DecidableEq, Repr

/-- Read the vertex dict object (a dangling reference reads empty). -/
def hreadV (hp : Heap) (r : Ref) : List (Nat × (Freq × Freq × String)) :=
  (dlookup hp.vcells r).getD []

/-- Read the hash-map dict object. -/
def hreadH (hp : Heap) (r : Ref) : List (String × List Nat) :=
  (dlookup hp.hcells r).getD []

/-- Read the edge dict object. -/
def hreadE (hp : Heap) (r : Ref) : List (Nat × List Nat) :=
  (dlookup hp.ecells r).getD []

/-- Read the label dict object. -/
def hreadL (hp : Heap) (r : Ref) : List (Nat × String) :=
  (dlookup hp.lcells r).getD []

/-- Overwrite the vertex dict object in place. -/
def hwriteV (hp : Heap) (r : Ref) (d : List (Nat × (Freq × Freq × String))) : Heap :=
  { hp with vcells := dinsert hp.vcells r d }

/-- Overwrite the hash-map dict object in place. -/
def hwriteH (hp : Heap) (r : Ref) (d : List (String × List Nat)) : Heap :=
  { hp with hcells := dinsert hp.hcells r d }

/-- Overwrite the edge dict object in place. -/
def hwriteE (hp : Heap) (r : Ref) (d : List (Nat × List Nat)) : Heap :=
  { hp with ecells := dinsert hp.ecells r d }

/-- Overwrite the label dict object in place. -/
def hwriteL (hp : Heap) (r : Ref) (d : List (Nat × String)) : Heap :=
  { hp with lcells := dinsert hp.lcells r d }

/-- The `for q in v_ordered` loop of `big_dag_append`, store-passing: every
dictionary access reads through, and every mutation writes through, the
references of the unpacked `big_dag` argument. -/
def bigLoopSt (dagArg : SingleDag) (merge : Bool) (nf : Nat) (refs : BigRefs) :
    List Nat → Heap → Nat → Except PyExc (Heap × Nat)
  | [], hp, idx => .ok (hp, idx)
  | q :: rest, hp, idx =>
    match dlookup dagArg.vertices q with
    | none => .error .keyError
    | some val =>
      let key := val.2.2
      match dlookup (hreadH hp refs.rh) key with
      | some nl =>
        match nl.head? with
        | none => .error .indexError
        | some node =>
          match dlookup (hreadV hp refs.rv) node with
          | none => .error .keyError
          | some cur =>
            match (if merge then freqAdd cur.2.1 val.2.1 else freqAddLast cur.2.1 val.2.1) with
            | .error e => .error e
            | .ok fr2 =>
              bigLoopSt dagArg merge nf refs rest
                (hwriteV hp refs.rv (dinsert (hreadV hp refs.rv) node (cur.1, fr2, cur.2.2)))
                idx
      | none =>
        match dlookup dagArg.labels q with
        | none => .error .keyError
        | some lb =>
          match dlookup dagArg.edges q with
          | none => .error .keyError
          | some children =>
            match buildEdges dagArg.vertices (hreadH hp refs.rh) children [] with
            | .error e => .error e
            | .ok d_edges =>
              match (if merge then .ok val.2.1
                     else match val.2.1 with
                          | .scalar n => .ok (.vec (List.replicate (nf - 1) 0 ++ [n]))
                          | .vec _ => .error .typeError :
                     Except PyExc Freq) with
              | .error e => .error e
              | .ok freq =>
                bigLoopSt dagArg merge nf refs rest
                  (hwriteL
                    (hwriteH
                      (hwriteE
                        (hwriteV hp refs.rv
                          (dinsert (hreadV hp refs.rv) idx (val.2.1, freq, key)))
                        refs.re (dinsert (hreadE hp refs.re) idx d_edges))
                      refs.rh (dinsert (hreadH hp refs.rh) key [idx]))
                    refs.rl (dinsert (hreadL hp refs.rl) idx lb))
                  (idx + 1)

/-- Source `big_dag_append` on a non-None `big_dag` argument, store-passing:
the argument tuple is four references, the padding loop and the merge loop
mutate the referenced objects in place, and the returned tuple is the very
same four references. -/
def big_dag_append_st (dagArg : SingleDag) (refs : BigRefs) (merge_features : Bool)
    (hp : Heap) : Except PyExc (BigRefs × Heap) :=
  let idx := (hreadV hp refs.rv).length
  if merge_features then
    match bigLoopSt dagArg true 1 refs dagArg.v_ordered hp idx with
    | .error e => .error e
    | .ok (hp2, _) => .ok (refs, hp2)
  else
    match padAll (hreadV hp refs.rv) with
    | .error e => .error e
    | .ok Dv =>
      match bigLoopSt dagArg false (nfOf Dv) refs dagArg.v_ordered
          (hwriteV hp refs.rv Dv) idx with
      | .error e => .error e
      | .ok (hp2, _) => .ok (refs, hp2)

/-- A one-cell heap holding the four dictionaries of `b1Pair`. -/
def c10Hp : Heap :=
  ⟨[(0, b1Pair.D_vertices)], [(0, b1Pair.D_hash_map)],
   [(0, b1Pair.D_edges)], [(0, b1Pair.D_labels)]⟩

/-- References of the `b1Pair` objects in `c10Hp`. -/
def c10Refs : BigRefs := ⟨0, 0, 0, 0⟩


theorem dlookup_dinsert_self [DecidableEq α] (d : List (α × β)) (a : α) (b : β) :
    dlookup (dinsert d a b) a = some b := by
  induction d with
  | nil => simp [dinsert, dlookup]
  | cons p rest ih =>
    by_cases h : p.1 = a
    · simp [dinsert, dlookup, h]
    · simp [dinsert, dlookup, h, ih]

theorem dlookup_dinsert_ne [DecidableEq α] (d : List (α × β)) (a c : α) (b : β)
    (h : c ≠ a) : dlookup (dinsert d a b) c = dlookup d c := by
  have hac : a ≠ c := h.symm
  induction d with
  | nil => simp [dinsert, dlookup, hac]
  | cons p rest ih =>
    by_cases hp : p.1 = a
    · have hc : p.1 ≠ c := by rw [hp]; exact hac
      simp [dinsert, dlookup, hp, hc, hac]
    · by_cases hc : p.1 = c
      · simp [dinsert, dlookup, hp, hc, hac, h]
      · simp [dinsert, dlookup, hp, hc, ih]

theorem dlookup_dremove_ne [DecidableEq α] (d : List (α × β)) (a c : α)
    (h : c ≠ a) : dlookup (dremove d a) c = dlookup d c := by
  have hac : a ≠ c := h.symm
  induction d with
  | nil => simp [dremove]
  | cons p rest ih =>
    by_cases hp : p.1 = a
    · have hc : p.1 ≠ c := by rw [hp]; exact hac
      simp [dremove, dlookup, hp, hc, hac]
    · by_cases hc : p.1 = c
      · simp [dremove, dlookup, hp, hc, hac, h]
      · simp [dremove, dlookup, hp, hc, ih]

theorem dkeys_dremove_sublist [DecidableEq α] (d : List (α × β)) (a : α) :
    (dkeys (dremove d a)).Sublist (dkeys d) := by
  induction d with
  | nil => simp [dremove]
  | cons p rest ih =>
    by_cases hp : p.1 = a
    · simp only [dremove, hp, if_pos rfl, dkeys, List.map]
      exact (List.sublist_cons_self _ _)
    · simp only [dremove, hp, if_neg hp, dkeys, List.map] at *
      exact ih.cons₂ _

theorem dkeys_nodup_dremove [DecidableEq α] {d : List (α × β)} (a : α)
    (h : (dkeys d).Nodup) : (dkeys (dremove d a)).Nodup :=
  (dkeys_dremove_sublist d a).nodup h

theorem dkeys_dinsert [DecidableEq α] (d : List (α × β)) (a : α) (b : β) :
    dkeys (dinsert d a b) = if (dlookup d a).isSome then dkeys d else dkeys d ++ [a] := by
  induction d with
  | nil => simp [dinsert, dlookup, dkeys]
  | cons p rest ih =>
    by_cases hp : p.1 = a
    · simp [dinsert, dlookup, hp, dkeys]
    · simp only [dinsert, if_neg hp, dlookup]
      simp only [dkeys, List.map] at *
      rw [ih]
      by_cases hs : (dlookup rest a).isSome <;> simp [hs]

theorem dlookup_none_not_mem [DecidableEq α] {d : List (α × β)} {a : α}
    (h : dlookup d a = none) : a ∉ dkeys d := by
  induction d with
  | nil => simp [dkeys]
  | cons p rest ih =>
    by_cases hp : p.1 = a
    · simp [dlookup, hp] at h
    · simp only [dlookup, if_neg hp] at h
      simp only [dkeys, List.map, List.mem_cons, not_or]
      exact ⟨fun hh => hp hh.symm, ih h⟩

theorem dkeys_nodup_dinsert [DecidableEq α] {d : List (α × β)} (a : α) (b : β)
    (h : (dkeys d).Nodup) : (dkeys (dinsert d a b)).Nodup := by
  rw [dkeys_dinsert]
  by_cases hs : (dlookup d a).isSome
  · simpa [hs] using h
  · have hnone : dlookup d a = none := Option.not_isSome_iff_eq_none.mp hs
    have hnot : a ∉ dkeys d := dlookup_none_not_mem hnone
    simp [hs, List.nodup_append, hnot, h]

theorem dlookup_mem_keys [DecidableEq α] {d : List (α × β)} {a : α} {b : β}
    (h : dlookup d a = some b) : a ∈ dkeys d := by
  induction d with
  | nil => simp [dlookup] at h
  | cons p rest ih =>
    by_cases hp : p.1 = a
    · simp [dkeys, List.map, hp]
    · simp only [dlookup, if_neg hp] at h
      simp only [dkeys, List.map, List.mem_cons]
      exact Or.inr (ih h)

theorem dlookup_isSome_of_mem_keys [DecidableEq α] {d : List (α × β)} {a : α}
    (h : a ∈ dkeys d) : (dlookup d a).isSome := by
  induction d with
  | nil => simp [dkeys] at h
  | cons p rest ih =>
    by_cases hp : p.1 = a
    · simp [dlookup, hp]
    · simp only [dkeys, List.map, List.mem_cons] at h
      rcases h with h1 | h2
      · exact absurd h1.symm hp
      · simpa [dlookup, hp] using ih h2

theorem charListLe_total : ∀ as bs : List Char,
    charListLe as bs = true ∨ charListLe bs as = true := by
  intro as
  induction as with
  | nil => intro bs; left; rfl
  | cons a as ih =>
    intro bs
    cases bs with
    | nil => right; rfl
    | cons b bs =>
      by_cases he : a.toNat = b.toNat
      · rcases ih bs with h | h
        · left; simpa [charListLe, he] using h
        · right; simpa [charListLe, he.symm] using h
      · rcases Nat.lt_or_ge a.toNat b.toNat with hl | hl
        · left; simp [charListLe, he, hl]
        · have hne : b.toNat ≠ a.toNat := fun hh => he hh.symm
          have hlt : b.toNat < a.toNat := lt_of_le_of_ne hl hne
          right
          simp [charListLe, hne, hlt]

theorem charListLe_trans : ∀ as bs cs : List Char,
    charListLe as bs = true → charListLe bs cs = true → charListLe as cs = true := by
  intro as
  induction as with
  | nil => intro bs cs _ _; rfl
  | cons a as ih =>
    intro bs cs h1 h2
    cases bs with
    | nil => simp [charListLe] at h1
    | cons b bs =>
      cases cs with
      | nil => simp [charListLe] at h2
      | cons c cs =>
        simp only [charListLe] at h1 h2 ⊢
        by_cases hab : a.toNat = b.toNat
        · by_cases hbc : b.toNat = c.toNat
          · have hac : a.toNat = c.toNat := hab.trans hbc
            rw [if_pos hab] at h1; rw [if_pos hbc] at h2; rw [if_pos hac]
            exact ih bs cs h1 h2
          · rw [if_neg hbc] at h2
            have hbc2 : b.toNat < c.toNat := by simpa using h2
            have hac : a.toNat < c.toNat := hab ▸ hbc2
            rw [if_neg (Nat.ne_of_lt hac)]
            simp [hac]
        · rw [if_neg hab] at h1
          have hab2 : a.toNat < b.toNat := by simpa using h1
          by_cases hbc : b.toNat = c.toNat
          · have hac : a.toNat < c.toNat := hbc ▸ hab2
            rw [if_neg (Nat.ne_of_lt hac)]
            simp [hac]
          · rw [if_neg hbc] at h2
            have hbc2 : b.toNat < c.toNat := by simpa using h2
            have hac : a.toNat < c.toNat := lt_trans hab2 hbc2
            rw [if_neg (Nat.ne_of_lt hac)]
            simp [hac]

theorem keyLeB_total (a b : Int × String) : keyLeB a b = true ∨ keyLeB b a = true := by
  unfold keyLeB
  rcases lt_trichotomy a.1 b.1 with h | h | h
  · left; simp [h]
  · rcases charListLe_total a.2.data b.2.data with hs | hs
    · left; simp [h, strLeB, hs]
    · right; simp [h.symm, strLeB, hs]
  · right; simp [h]

theorem keyLeB_trans {a b c : Int × String} (h1 : keyLeB a b = true)
    (h2 : keyLeB b c = true) : keyLeB a c = true := by
  unfold keyLeB at *
  simp only [Bool.or_eq_true, Bool.and_eq_true, decide_eq_true_eq] at *
  rcases h1 with h1 | ⟨h1e, h1s⟩
  · rcases h2 with h2 | ⟨h2e, _⟩
    · exact Or.inl (lt_trans h1 h2)
    · exact Or.inl (h2e ▸ h1)
  · rcases h2 with h2 | ⟨h2e, h2s⟩
    · exact Or.inl (h1e ▸ h2)
    · exact Or.inr ⟨h1e.trans h2e, charListLe_trans _ _ _ h1s h2s⟩

theorem keyLeB_false_of_rank_lt {a b : Int × String} (h : b.1 < a.1) :
    keyLeB a b = false := by
  unfold keyLeB
  simp only [Bool.or_eq_false_iff, Bool.and_eq_false_iff]
  exact ⟨by simp [not_lt_of_gt h], Or.inl (by simp [ne_of_gt h])⟩

theorem insOrdered_perm (le : α → α → Bool) (a : α) (l : List α) :
    List.Perm (insOrdered le a l) (a :: l) := by
  induction l with
  | nil => simp [insOrdered]
  | cons b bs ih =>
    by_cases h : le a b
    · simp [insOrdered, h]
    · simp only [insOrdered, h, Bool.false_eq_true, if_false]
      exact (ih.cons b).trans (List.Perm.swap a b bs)

theorem insSort_perm (le : α → α → Bool) (l : List α) :
    List.Perm (insSort le l) l := by
  induction l with
  | nil => simp [insSort]
  | cons a rest ih =>
    exact (insOrdered_perm le a (insSort le rest)).trans (ih.cons a)

theorem insSort_mem (le : α → α → Bool) (l : List α) (x : α) :
    x ∈ insSort le l ↔ x ∈ l :=
  (insSort_perm le l).mem_iff

theorem insOrdered_pairwise (le : α → α → Bool)
    (htot : ∀ x y, le x y = true ∨ le y x = true)
    (htrans : ∀ x y z, le x y = true → le y z = true → le x z = true)
    (a : α) (l : List α)
    (h : l.Pairwise (fun x y => le x y = true)) :
    (insOrdered le a l).Pairwise (fun x y => le x y = true) := by
  induction l with
  | nil => simp [insOrdered]
  | cons b bs ih =>
    rcases List.pairwise_cons.mp h with ⟨hb, hbs⟩
    by_cases hab : le a b
    · simp only [insOrdered, hab, if_true]
      refine List.pairwise_cons.mpr ⟨?_, h⟩
      intro y hy
      rcases List.mem_cons.mp hy with heq | hy
      · exact heq ▸ hab
      · exact htrans a b y hab (hb y hy)
    · have hba : le b a = true := (htot a b).resolve_left (by simpa using hab)
      simp only [insOrdered, hab, Bool.false_eq_true, if_false]
      refine List.pairwise_cons.mpr ⟨?_, ih hbs⟩
      intro y hy
      rcases List.mem_cons.mp ((insOrdered_perm le a bs).mem_iff.mp hy) with heq | hy
      · exact heq ▸ hba
      · exact hb y hy

theorem insSort_pairwise (le : α → α → Bool)
    (htot : ∀ x y, le x y = true ∨ le y x = true)
    (htrans : ∀ x y z, le x y = true → le y z = true → le x z = true)
    (l : List α) :
    (insSort le l).Pairwise (fun x y => le x y = true) := by
  induction l with
  | nil => simp [insSort]
  | cons a rest ih => exact insOrdered_pairwise le htot htrans a (insSort le rest) ih

theorem resolveKeyed_spec {keyOf : Nat → Option (Int × String)} :
    ∀ {xs : List Nat} {l : List ((Int × String) × Nat)},
      resolveKeyed keyOf xs = .ok l →
      l.map Prod.snd = xs ∧ ∀ p ∈ l, keyOf p.2 = some p.1 := by
  intro xs
  induction xs with
  | nil => intro l h; cases h; simp [resolveKeyed] at *
  | cons x rest ih =>
    intro l h
    simp only [resolveKeyed] at h
    cases hk : keyOf x with
    | none => rw [hk] at h; cases h
    | some k =>
      rw [hk] at h
      cases hr : resolveKeyed keyOf rest with
      | error e => rw [hr] at h; cases h
      | ok l0 =>
        rw [hr] at h
        simp only [Except.map] at h
        cases h
        rcases ih hr with ⟨hmap, hall⟩
        constructor
        · simp [hmap]
        · intro p hp
          rcases List.mem_cons.mp hp with heq | hp
          · subst heq; exact hk
          · exact hall p hp

theorem sortByKey_mem {keyOf : Nat → Option (Int × String)} {xs ys : List Nat}
    (h : sortByKey keyOf xs = .ok ys) : ∀ x, x ∈ ys ↔ x ∈ xs := by
  intro x
  simp only [sortByKey] at h
  cases hr : resolveKeyed keyOf xs with
  | error e => rw [hr] at h; cases h
  | ok l =>
    rw [hr] at h
    simp only [Except.map] at h
    cases h
    rcases resolveKeyed_spec hr with ⟨hmap, _⟩
    constructor
    · intro hx
      rcases List.mem_map.mp hx with ⟨p, hp, hpx⟩
      have := (insSort_perm pairLe l).mem_iff.mp hp
      rw [← hmap]
      exact List.mem_map.mpr ⟨p, this, hpx⟩
    · intro hx
      rw [← hmap] at hx
      rcases List.mem_map.mp hx with ⟨p, hp, hpx⟩
      exact List.mem_map.mpr ⟨p, (insSort_perm pairLe l).mem_iff.mpr hp, hpx⟩

/-- C2: the claim says that with `max_height = 3` the DAG extracted from one
end of a ten-edge chain has exactly 4 vertices.  In the kernel path the
height is dropped (`make_dag_odd` calls `dag(v, g, h=None)`), so the
extracted DAG has all 11 chain vertices; only a direct `dag` call with
`h = 3` yields the 4 vertices the claim requires. -/
theorem c2_depth_bound_dropped_in_kernel_path :
    (make_dag_odd 0 chainG (some 3) 50).map (fun o => o.vertices.length) = .ok 11 ∧
    (dag 0 chainG (some 3) 50).map (fun p => p.1.length) = .ok 4 ∧ (11 : Nat) ≠ 4 := by
  refine ⟨by decide, by decide, by decide⟩

/-- C8: the claim says an explicit non-positive height is rejected with an
invalid-input error before traversal.  The kernel entry point never
forwards `h` to `dag` (source lines 22 and 106), so `h = 0` produces a
normal kernel matrix; the `ValueError` only fires on a direct `dag` call. -/
theorem c8_nonpositive_height_not_rejected :
    odd_sth_matrix [oneG] none (some 0) 50 = .ok [[1]] ∧
    dag 0 oneG (some 0) 50 =
      .error (.valueError "depth of visits must be bigger than zero") := by
  refine ⟨by decide, by decide⟩

/-- C7 counterexample: `odd` does not raise on an edge map referencing
vertex 1 outside the vertex set `{0}`; the run completes normally (the
out-of-set vertex is even ranked). -/
theorem c7_counterexample_outside_edge_accepted :
    odd (PyVerts.vset [0]) [(0, [1]), (1, [])] [(0, "a"), (1, "b")] 20 =
      .ok ⟨[0], [(0, [1]), (1, [])], [(0, 1), (1, 0)], [(0, "a"), (1, "b")]⟩ := by
  decide

/-- C7 amended: the Canonical Orderer raises the invalid-input error for an
unsupported vertex-collection type; an edge referencing a vertex outside
the given vertex set is not detected as invalid input: such a call can
complete normally. -/
theorem c7_amended_only_type_checked :
    (∀ E labels fuel, odd PyVerts.other E labels fuel =
      .error (.valueError "unsupported vertices type")) ∧
    odd (PyVerts.vset [0]) [(0, [1]), (1, [])] [(0, "a"), (1, "b")] 20 =
      .ok ⟨[0], [(0, [1]), (1, [])], [(0, 1), (1, 0)], [(0, "a"), (1, "b")]⟩ := by
  exact ⟨fun E labels fuel => rfl, by decide⟩

/-- C1: on the self-mode run over `starG`, the computed kernel entry is 21,
whereas the formula of the claim (with `C[v]` the depth weight of node `v`)
gives 8.  The recorded slot 0 of the leaf node 0 (identity "c", empty edge
list) is 2 — the occurrence count `vertices[q][1]` stored by
`big_dag_append` — while the depth weight of a leaf is 0. -/
theorem c1_weight_is_count_not_depth :
    matLoop none 50 [starG] none = .ok (some starBig2) ∧
    odd_sth_matrix [starG] none none 50 = .ok [[21]] ∧
    specKernelEntry starBig2 10 0 0 = 8 ∧ (21 : Nat) ≠ 8 ∧
    dlookup starBig2.D_vertices 0 = some (Freq.scalar 2, Freq.vec [2], "c") ∧
    dlookup starBig2.D_edges 0 = some [] ∧
    specDepthWeight starBig2.D_edges 10 0 = 0 := by
  refine ⟨by decide, by decide, by decide, by decide, by decide, by decide, by decide⟩

/-- Entries of the symmetrized self-mode matrix. -/
theorem getEntry_symmetrize (m : List (List Nat)) (hy hx r c : Nat) :
    getEntry (symmetrize m hy hx) r c =
      if r < hy ∧ c < hx then
        (if r ≤ c then getEntry m r c else 0) + (if c < r then getEntry m c r else 0)
      else 0 := by
  unfold symmetrize
  by_cases hr : r < hy
  · have h1 : (List.range hy)[r]? = some r := by
      simp [List.getElem?_range, hr]
    by_cases hc : c < hx
    · have h2 : (List.range hx)[c]? = some c := by
        simp [List.getElem?_range, hc]
      simp [getEntry, h1, h2, hr, hc]
    · have h2 : (List.range hx)[c]? = none := by
        simp [List.getElem?_eq_none_iff, not_lt.mp hc]
      simp [getEntry, h1, h2, hr, hc]
  · have h1 : (List.range hy)[r]? = none := by
      simp [List.getElem?_eq_none_iff, not_lt.mp hr]
    simp [getEntry, h1, hr]

/-- The symmetrized square matrix is pointwise symmetric. -/
theorem symmetrize_entry_symm (m : List (List Nat)) (n r c : Nat) :
    getEntry (symmetrize m n n) r c = getEntry (symmetrize m n n) c r := by
  rw [getEntry_symmetrize, getEntry_symmetrize]
  by_cases hr : r < n
  · by_cases hc : c < n
    · simp only [hr, hc, and_self, if_true]
      rcases lt_trichotomy r c with h | h | h
      · rw [if_pos (le_of_lt h), if_neg (not_lt.mpr (le_of_lt h)),
          if_neg (not_le.mpr h), if_pos h]
        omega
      · subst h
        rw [if_pos (le_refl r), if_neg (lt_irrefl r)]
      · rw [if_neg (not_le.mpr h), if_pos h, if_pos (le_of_lt h),
          if_neg (not_lt.mpr (le_of_lt h))]
        omega
    · simp [hr, hc]
  · by_cases hc : c < n <;> simp [hr, hc]

/-- C6: in self-comparison mode the kernel matrix returned by
`odd_sth_matrix` is exactly symmetric (the upper triangle is computed and
the lower triangle filled by the `np.triu` symmetrization). -/
theorem c6_self_mode_matrix_symmetric (Gs : List PyGraph) (h : Option Int)
    (fuel : Nat) (K : List (List Nat))
    (hrun : odd_sth_matrix Gs none h fuel = .ok K) :
    ∀ i j, getEntry K i j = getEntry K j i := by
  intro i j
  unfold odd_sth_matrix at hrun
  cases hml : matLoop h fuel Gs none with
  | error e => rw [hml] at hrun; cases hrun
  | ok ob =>
    cases ob with
    | none => rw [hml] at hrun; cases hrun
    | some B =>
      rw [hml] at hrun
      simp only at hrun
      cases hfk : fillK B 0 (upperPairs Gs.length) (zerosMat Gs.length Gs.length) with
      | error e => rw [hfk] at hrun; cases hrun
      | ok K0 =>
        rw [hfk] at hrun
        simp only at hrun
        cases hrun
        exact symmetrize_entry_symm K0 Gs.length i j

/-- C6 witness: a concrete two-graph self-mode run and one symmetric
entry pair. -/
theorem c6_witness :
    odd_sth_matrix [oneG, starG] none none 80 = .ok [[1, 0], [0, 21]] ∧
    getEntry [[1, 0], [0, 21]] 0 1 = getEntry [[1, 0], [0, 21]] 1 0 :=
  ⟨by decide,
   c6_self_mode_matrix_symmetric [oneG, starG] none 80 [[1, 0], [0, 21]] (by decide) 0 1⟩

/-- Level invariant through the inner neighbor loop of `dag`: the vertex
level map only grows, queue entries carry their recorded level, and every
retained edge climbs by at least one level. -/
theorem dagFold_inv (u : Nat) (level : Nat) :
    ∀ (ns : List Nat) (q : List (Nat × Nat)) (verts : List (Nat × Nat))
      (edges : List (Nat × List Nat)) (q2 : List (Nat × Nat))
      (verts2 : List (Nat × Nat)) (edges2 : List (Nat × List Nat)),
      ns.foldl (dagNeighborStep u level) (q, verts, edges) = (q2, verts2, edges2) →
      (∀ p ∈ q, dlookup verts p.1 = some p.2) →
      (∀ x y, edgeIn edges x y → ∃ lx ly, dlookup verts x = some lx ∧
        dlookup verts y = some ly ∧ lx + 1 ≤ ly) →
      dlookup verts u = some level →
      (∀ x lx, dlookup verts x = some lx → dlookup verts2 x = some lx) ∧
      (∀ p ∈ q2, dlookup verts2 p.1 = some p.2) ∧
      (∀ x y, edgeIn edges2 x y → ∃ lx ly, dlookup verts2 x = some lx ∧
        dlookup verts2 y = some ly ∧ lx + 1 ≤ ly) ∧
      dlookup verts2 u = some level := by
  intro ns
  induction ns with
  | nil =>
    intro q verts edges q2 verts2 edges2 hfold hq he hu
    simp only [List.foldl] at hfold
    cases hfold
    exact ⟨fun x lx hx => hx, hq, he, hu⟩
  | cons n rest ih =>
    intro q verts edges q2 verts2 edges2 hfold hq he hu
    simp only [List.foldl] at hfold
    rcases hstep : dagNeighborStep u level (q, verts, edges) n with ⟨q1, verts1, edges1⟩
    rw [hstep] at hfold
    -- establish the invariant for the single-step state
    have hstep_inv :
        (∀ x lx, dlookup verts x = some lx → dlookup verts1 x = some lx) ∧
        (∀ p ∈ q1, dlookup verts1 p.1 = some p.2) ∧
        (∀ x y, edgeIn edges1 x y → ∃ lx ly, dlookup verts1 x = some lx ∧
          dlookup verts1 y = some ly ∧ lx + 1 ≤ ly) ∧
        dlookup verts1 u = some level := by
      unfold dagNeighborStep at hstep
      dsimp only at hstep
      cases hn : dlookup verts n with
      | none =>
        rw [hn] at hstep
        simp only at hstep
        cases hstep
        have hmono : ∀ x lx, dlookup verts x = some lx →
            dlookup (dinsert verts n (level + 1)) x = some lx := by
          intro x lx hx
          have hne : x ≠ n := by
            intro hh; rw [hh, hn] at hx; cases hx
          rw [dlookup_dinsert_ne verts n x (level + 1) hne]
          exact hx
        refine ⟨hmono, ?_, ?_, hmono u level hu⟩
        · intro p hp
          rcases List.mem_append.mp hp with hp | hp
          · exact hmono p.1 p.2 (hq p hp)
          · rcases List.mem_singleton.mp hp with rfl
            exact dlookup_dinsert_self verts n (level + 1)
        · intro x y hxy
          rcases hxy with ⟨l, hl, hyl⟩
          by_cases hxu : x = u
          · subst hxu
            rw [dlookup_dinsert_self] at hl
            cases hl
            rcases List.mem_append.mp hyl with hyl | hyl
            · have hold : edgeIn edges x y := by
                cases hcur : dlookup edges x with
                | none => simp [hcur, Option.getD] at hyl
                | some lc =>
                  exact ⟨lc, hcur, by simpa [hcur, Option.getD] using hyl⟩
              rcases he x y hold with ⟨lx, ly, h1, h2, h3⟩
              exact ⟨lx, ly, hmono x lx h1, hmono y ly h2, h3⟩
            · rcases List.mem_singleton.mp hyl with rfl
              exact ⟨level, level + 1, hmono x level hu,
                dlookup_dinsert_self verts _ (level + 1), le_refl _⟩
          · rw [dlookup_dinsert_ne edges u x _ hxu] at hl
            rcases he x y ⟨l, hl, hyl⟩ with ⟨lx, ly, h1, h2, h3⟩
            exact ⟨lx, ly, hmono x lx h1, hmono y ly h2, h3⟩
      | some ln =>
        simp only [hn] at hstep
        by_cases hle : level + 1 ≤ ln
        · rw [if_pos hle] at hstep
          cases hstep
          refine ⟨fun x lx hx => hx, hq, ?_, hu⟩
          intro x y hxy
          rcases hxy with ⟨l, hl, hyl⟩
          by_cases hxu : x = u
          · subst hxu
            rw [dlookup_dinsert_self] at hl
            cases hl
            rcases List.mem_append.mp hyl with hyl | hyl
            · have hold : edgeIn edges x y := by
                cases hcur : dlookup edges x with
                | none => simp [hcur, Option.getD] at hyl
                | some lc =>
                  exact ⟨lc, hcur, by simpa [hcur, Option.getD] using hyl⟩
              exact he x y hold
            · rcases List.mem_singleton.mp hyl with rfl
              exact ⟨level, ln, hu, hn, hle⟩
          · rw [dlookup_dinsert_ne edges u x _ hxu] at hl
            exact he x y ⟨l, hl, hyl⟩
        · rw [if_neg hle] at hstep
          cases hstep
          exact ⟨fun x lx hx => hx, hq, he, hu⟩
    rcases hstep_inv with ⟨hmono1, hq1, he1, hu1⟩
    rcases ih q1 verts1 edges1 q2 verts2 edges2 hfold hq1 he1 hu1 with
      ⟨hmono2, hq2, he2, hu2⟩
    exact ⟨fun x lx hx => hmono2 x lx (hmono1 x lx hx), hq2, he2, hu2⟩

/-- Level invariant through the whole `dag` BFS loop. -/
theorem dagLoop_inv (g : PyGraph) (h : Int) :
    ∀ (fuel : Nat) (q : List (Nat × Nat)) (verts : List (Nat × Nat))
      (edges : List (Nat × List Nat)) (vm : List (Nat × Nat))
      (em : List (Nat × List Nat)),
      (∀ p ∈ q, dlookup verts p.1 = some p.2) →
      (∀ x y, edgeIn edges x y → ∃ lx ly, dlookup verts x = some lx ∧
        dlookup verts y = some ly ∧ lx + 1 ≤ ly) →
      dagLoop g h fuel q verts edges = .ok (vm, em) →
      ∀ x y, edgeIn em x y → ∃ lx ly, dlookup vm x = some lx ∧
        dlookup vm y = some ly ∧ lx + 1 ≤ ly := by
  intro fuel
  induction fuel with
  | zero =>
    intro q verts edges vm em hq he hrun
    cases q with
    | nil => simp only [dagLoop] at hrun; cases hrun; exact he
    | cons p q => simp only [dagLoop] at hrun; cases hrun
  | succ fuel ih =>
    intro q verts edges vm em hq he hrun
    cases q with
    | nil => simp only [dagLoop] at hrun; cases hrun; exact he
    | cons p q =>
      rcases p with ⟨u, level⟩
      simp only [dagLoop] at hrun
      by_cases hlh : (level : Int) = h
      · rw [if_pos hlh] at hrun; cases hrun; exact he
      · rw [if_neg hlh] at hrun
        have hu : dlookup verts u = some level := hq (u, level) (List.mem_cons_self _ _)
        set edges1 := if dcontains edges u then edges else dinsert edges u [] with hedges1
        have he1 : ∀ x y, edgeIn edges1 x y → ∃ lx ly, dlookup verts x = some lx ∧
            dlookup verts y = some ly ∧ lx + 1 ≤ ly := by
          rw [hedges1]
          by_cases hc : dcontains edges u
          · simpa [hc] using he
          · simp only [hc, Bool.false_eq_true, if_false]
            intro x y hxy
            rcases hxy with ⟨l, hl, hyl⟩
            by_cases hxu : x = u
            · subst hxu
              rw [dlookup_dinsert_self] at hl
              cases hl
              cases hyl
            · rw [dlookup_dinsert_ne edges u x _ hxu] at hl
              exact he x y ⟨l, hl, hyl⟩
        have hq1 : ∀ p ∈ q, dlookup verts p.1 = some p.2 :=
          fun p hp => hq p (List.mem_cons_of_mem _ hp)
        rcases hfold : (g.neighbors u).foldl (dagNeighborStep u level) (q, verts, edges1)
          with ⟨q2, verts2, edges2⟩
        rcases dagFold_inv u level (g.neighbors u) q verts edges1 q2 verts2 edges2
          hfold hq1 he1 hu with ⟨_, hq2, he2, _⟩
        rw [hfold] at hrun
        exact ih q2 verts2 edges2 vm em hq2 he2 hrun

/-- Along a path of retained edges the recorded level strictly increases. -/
theorem edgePath_level_lt (E : List (Nat × List Nat)) (vm : List (Nat × Nat))
    (hE : ∀ x y, edgeIn E x y → ∃ lx ly, dlookup vm x = some lx ∧
      dlookup vm y = some ly ∧ lx + 1 ≤ ly) :
    ∀ u w, EdgePath E u w → ∃ lu lw, dlookup vm u = some lu ∧
      dlookup vm w = some lw ∧ lu < lw := by
  intro u w hp
  induction hp with
  | single h1 =>
    rcases hE _ _ h1 with ⟨lx, ly, e1, e2, e3⟩
    exact ⟨lx, ly, e1, e2, by omega⟩
  | cons h1 _ ih2 =>
    rcases hE _ _ h1 with ⟨lx, ly, e1, e2, e3⟩
    rcases ih2 with ⟨lw0, lw1, f1, f2, f3⟩
    rw [f1] at e2
    cases e2
    exact ⟨lx, lw1, e1, f2, by omega⟩

/-- C9: every edge retained by the BFS extraction goes from a vertex at
some recorded level `L` to a vertex recorded at level at least `L + 1`
(unseen neighbors are recorded at `L + 1`; already-seen neighbors keep the
edge only when their recorded level is at least `L + 1`), and consequently
the extracted edge set is acyclic. -/
theorem c9_dag_edges_level_monotone_acyclic (v : Nat) (g : PyGraph)
    (hIn : Option Int) (fuel : Nat) (vm : List (Nat × Nat))
    (em : List (Nat × List Nat))
    (hrun : dagRaw v g hIn fuel = .ok (vm, em)) :
    (∀ x y, edgeIn em x y → ∃ lx ly, dlookup vm x = some lx ∧
      dlookup vm y = some ly ∧ lx + 1 ≤ ly) ∧
    ∀ u, ¬ EdgePath em u u := by
  have hlevels : ∀ x y, edgeIn em x y → ∃ lx ly, dlookup vm x = some lx ∧
      dlookup vm y = some ly ∧ lx + 1 ≤ ly := by
    have hq0 : ∀ p ∈ [((v : Nat), (0 : Nat))], dlookup [((v : Nat), (0 : Nat))] p.1 = some p.2 := by
      intro p hp
      rcases List.mem_singleton.mp hp with rfl
      simp [dlookup]
    have he0 : ∀ x y, edgeIn ([] : List (Nat × List Nat)) x y → ∃ lx ly,
        dlookup [((v : Nat), (0 : Nat))] x = some lx ∧
        dlookup [((v : Nat), (0 : Nat))] y = some ly ∧ lx + 1 ≤ ly := by
      intro x y hxy
      rcases hxy with ⟨l, hl, _⟩
      cases hl
    cases hIn with
    | none =>
      simp only [dagRaw] at hrun
      exact dagLoop_inv g (-1) fuel _ _ _ vm em hq0 he0 hrun
    | some h0 =>
      simp only [dagRaw] at hrun
      by_cases hpos : h0 ≤ 0
      · rw [if_pos hpos] at hrun; cases hrun
      · rw [if_neg hpos] at hrun
        exact dagLoop_inv g h0 fuel _ _ _ vm em hq0 he0 hrun
  refine ⟨hlevels, ?_⟩
  intro u hpath
  rcases edgePath_level_lt em vm hlevels u u hpath with ⟨lu, lw, e1, e2, e3⟩
  rw [e1] at e2
  cases e2
  omega

/-- C9 witness: the invariant instantiated on the concrete extraction from
the star graph. -/
theorem c9_witness :
    dagRaw 0 starG none 20 = .ok ([(0, 0), (1, 1), (2, 1)], [(0, [1, 2]), (1, []), (2, [])]) ∧
    ((∀ x y, edgeIn [(0, [1, 2]), (1, []), (2, [])] x y → ∃ lx ly,
        dlookup [(0, 0), (1, 1), (2, 1)] x = some lx ∧
        dlookup [(0, 0), (1, 1), (2, 1)] y = some ly ∧ lx + 1 ≤ ly) ∧
      ∀ u, ¬ EdgePath [(0, [1, 2]), (1, []), (2, [])] u u) :=
  ⟨by decide,
   c9_dag_edges_level_monotone_acyclic 0 starG none 20
     [(0, 0), (1, 1), (2, 1)] [(0, [1, 2]), (1, []), (2, [])] (by decide)⟩

theorem sortByKey_perm {keyOf : Nat → Option (Int × String)} {xs ys : List Nat}
    (h : sortByKey keyOf xs = .ok ys) : List.Perm ys xs := by
  unfold sortByKey at h
  cases hr : resolveKeyed keyOf xs with
  | error e => rw [hr] at h; cases h
  | ok l =>
    rw [hr] at h
    simp only [Except.map] at h
    cases h
    rcases resolveKeyed_spec hr with ⟨hmap, _⟩
    have : List.Perm (List.map Prod.snd (insSort pairLe l)) (List.map Prod.snd l) :=
      (insSort_perm pairLe l).map Prod.snd
    rw [hmap] at this
    exact this

/-- Specification of the `childAccum` loop relative to the current vertex
dict: all children must be present, the weight accumulates
`1 + weight[child]` and the identities are collected in order. -/
theorem childAccum_spec (verts : List (Nat × HashVal)) :
    ∀ (l : List Nat) (d0 : Nat) (ids0 : List String) (d : Nat) (ids : List String),
      childAccum verts l d0 ids0 = .ok (d, ids) →
      (∀ c ∈ l, (dlookup verts c).isSome) ∧
      d = d0 + l.length + (childWeights verts l).sum ∧
      ids = ids0 ++ childIds verts l := by
  intro l
  induction l with
  | nil =>
    intro d0 ids0 d ids hrun
    simp only [childAccum] at hrun
    cases hrun
    simp [childWeights, childIds]
  | cons c rest ih =>
    intro d0 ids0 d ids hrun
    simp only [childAccum] at hrun
    cases hc : dlookup verts c with
    | none => rw [hc] at hrun; cases hrun
    | some val =>
      rw [hc] at hrun
      rcases ih _ _ _ _ hrun with ⟨hall, hd, hids⟩
      refine ⟨?_, ?_, ?_⟩
      · intro x hx
        rcases List.mem_cons.mp hx with rfl | hx
        · simp [hc]
        · exact hall x hx
      · rw [hd]
        simp only [childWeights, List.map, List.sum_cons, List.length_cons, hc,
          Option.map, Option.getD]
        omega
      · rw [hids]
        simp [childIds, hc]

/-- Specification of the `hash_trees` main loop: processed vertices obey
the leaf/internal recurrence of the canonicalizer relative to the final
vertex dict, and existing entries are never overwritten (the pending list
is duplicate-free and disjoint from the processed keys). -/
theorem hashLoop_spec (edge : List (Nat × List Nat)) (labels : List (Nat × String)) :
    ∀ (rest : List Nat) (verts : List (Nat × HashVal))
      (hmap : List (String × List Nat)) (vertsF : List (Nat × HashVal))
      (hmapF : List (String × List Nat)),
      hashLoop edge labels rest verts hmap = .ok (vertsF, hmapF) →
      rest.Nodup →
      (∀ x ∈ rest, dlookup verts x = none) →
      (∀ x lx, dlookup verts x = some lx → dlookup vertsF x = some lx) ∧
      (∀ v ∈ rest, ∃ lb, dlookup labels v = some lb ∧
        ((dlookup edge v = none ∨ dlookup edge v = some []) →
          dlookup vertsF v = some (0, 1, lb)) ∧
        (∀ l, dlookup edge v = some l → l ≠ [] →
          (∀ c ∈ l, (dlookup vertsF c).isSome) ∧
          dlookup vertsF v = some (l.length + (childWeights vertsF l).sum, 1,
            lb ++ "(" ++ String.intercalate "," (childIds vertsF l) ++ ")"))) := by
  intro rest
  induction rest with
  | nil =>
    intro verts hmap vertsF hmapF hrun _ _
    simp only [hashLoop] at hrun
    cases hrun
    exact ⟨fun x lx hx => hx, by simp⟩
  | cons v rest ih =>
    intro verts hmap vertsF hmapF hrun hnd hnone
    have hvnone : dlookup verts v = none := hnone v (List.mem_cons_self _ _)
    have hndrest : rest.Nodup := (List.nodup_cons.mp hnd).2
    have hvnotin : v ∉ rest := (List.nodup_cons.mp hnd).1
    simp only [hashLoop] at hrun
    cases hlb : dlookup labels v with
    | none => rw [hlb] at hrun; cases hrun
    | some lb =>
      rw [hlb] at hrun
      have hnone2 : ∀ (val : HashVal) (x : Nat), x ∈ rest →
          dlookup (dinsert verts v val) x = none := by
        intro val x hx
        have hne : x ≠ v := fun hh => hvnotin (hh ▸ hx)
        rw [dlookup_dinsert_ne verts v x val hne]
        exact hnone x (List.mem_cons_of_mem _ hx)
      cases hedge : dlookup edge v with
      | none =>
        rw [hedge] at hrun
        rcases ih (dinsert verts v (0, 1, lb)) (happend hmap lb v) vertsF hmapF hrun
          hndrest (hnone2 _) with ⟨hmono, hrest⟩
        have hmono0 : ∀ x lx, dlookup verts x = some lx → dlookup vertsF x = some lx := by
          intro x lx hx
          have hne : x ≠ v := fun hh => by rw [hh, hvnone] at hx; cases hx
          exact hmono x lx (by rw [dlookup_dinsert_ne verts v x _ hne]; exact hx)
        refine ⟨hmono0, ?_⟩
        intro w hw
        rcases List.mem_cons.mp hw with rfl | hw
        · refine ⟨lb, hlb, ?_, ?_⟩
          · intro _
            exact hmono w (0, 1, lb) (dlookup_dinsert_self verts w (0, 1, lb))
          · intro l hl
            rw [hedge] at hl
            cases hl
        · exact hrest w hw
      | some l =>
        cases l with
        | nil =>
          rw [hedge] at hrun
          rcases ih (dinsert verts v (0, 1, lb)) (happend hmap lb v) vertsF hmapF hrun
            hndrest (hnone2 _) with ⟨hmono, hrest⟩
          have hmono0 : ∀ x lx, dlookup verts x = some lx → dlookup vertsF x = some lx := by
            intro x lx hx
            have hne : x ≠ v := fun hh => by rw [hh, hvnone] at hx; cases hx
            exact hmono x lx (by rw [dlookup_dinsert_ne verts v x _ hne]; exact hx)
          refine ⟨hmono0, ?_⟩
          intro w hw
          rcases List.mem_cons.mp hw with rfl | hw
          · refine ⟨lb, hlb, ?_, ?_⟩
            · intro _
              exact hmono w (0, 1, lb) (dlookup_dinsert_self verts w (0, 1, lb))
            · intro l2 hl2 hl2ne
              rw [hedge] at hl2
              cases hl2
              exact absurd rfl hl2ne
          · exact hrest w hw
        | cons c0 ctail =>
          simp only [hedge] at hrun
          cases hacc : childAccum verts (c0 :: ctail) 0 [] with
          | error e => simp only [hacc] at hrun; cases hrun
          | ok p =>
            rcases p with ⟨d, ids⟩
            simp only [hacc] at hrun
            rcases childAccum_spec verts (c0 :: ctail) 0 [] d ids hacc with
              ⟨hkids, hd, hids⟩
            set ID := lb ++ "(" ++ String.intercalate "," ids ++ ")" with hID
            rcases ih (dinsert verts v (d, 1, ID)) (happend hmap ID v) vertsF hmapF hrun
              hndrest (hnone2 _) with ⟨hmono, hrest⟩
            have hmono0 : ∀ x lx, dlookup verts x = some lx → dlookup vertsF x = some lx := by
              intro x lx hx
              have hne : x ≠ v := fun hh => by rw [hh, hvnone] at hx; cases hx
              exact hmono x lx (by rw [dlookup_dinsert_ne verts v x _ hne]; exact hx)
            have hkeep : ∀ c ∈ (c0 :: ctail), dlookup vertsF c = dlookup verts c := by
              intro c hc
              rcases ho : dlookup verts c with _ | cv
              · have := hkids c hc
                rw [ho] at this
                cases this
              · exact hmono0 c cv ho
            refine ⟨hmono0, ?_⟩
            intro w hw
            rcases List.mem_cons.mp hw with rfl | hw
            · refine ⟨lb, hlb, ?_, ?_⟩
              · intro hcontra
                rcases hcontra with hc1 | hc1 <;> rw [hedge] at hc1 <;> cases hc1
              · intro l2 hl2 _
                rw [hedge] at hl2
                cases hl2
                have hweq : childWeights vertsF (c0 :: ctail) = childWeights verts (c0 :: ctail) := by
                  unfold childWeights
                  exact List.map_congr_left (fun c hc => by rw [hkeep c hc])
                have hieq : childIds vertsF (c0 :: ctail) = childIds verts (c0 :: ctail) := by
                  unfold childIds
                  exact List.map_congr_left (fun c hc => by rw [hkeep c hc])
                refine ⟨?_, ?_⟩
                · intro c hc
                  rw [hkeep c hc]
                  exact hkids c hc
                · have hfin : dlookup vertsF w = some (d, 1, ID) :=
                    hmono w (d, 1, ID) (dlookup_dinsert_self verts w (d, 1, ID))
                  rw [hfin, hID, hids, hweq, hieq]
                  have : d = (c0 :: ctail).length + (childWeights verts (c0 :: ctail)).sum := by
                    rw [hd]; omega
                  rw [this]
                  simp [childIds]
            · exact hrest w hw

/-- C3: every vertex processed by `hash_trees` satisfies the canonical
recurrence: a vertex with no outgoing edges gets weight 0 and identity
`str(label)`; a vertex with sorted children `c1..ck` gets weight
`k + sum of weights of the ci` and identity
`label ++ "(" ++ comma-joined child identities ++ ")"`. -/
theorem c3_canonicalizer_recurrence (t : OddOut) (hout : HashOut)
    (hrun : hash_trees t = .ok hout) (hnd : t.vertices.Nodup) :
    ∀ v ∈ hout.v_ordered, ∃ lb, dlookup t.labels v = some lb ∧
      ((dlookup t.edges v = none ∨ dlookup t.edges v = some []) →
        dlookup hout.vertices v = some (0, 1, lb)) ∧
      (∀ l, dlookup t.edges v = some l → l ≠ [] →
        (∀ c ∈ l, (dlookup hout.vertices c).isSome) ∧
        dlookup hout.vertices v = some (l.length + (childWeights hout.vertices l).sum, 1,
          lb ++ "(" ++ String.intercalate "," (childIds hout.vertices l) ++ ")")) := by
  unfold hash_trees at hrun
  cases hsort : sortByKey (rankLabelKey t.ordering t.labels) t.vertices with
  | error e => rw [hsort] at hrun; cases hrun
  | ok vord =>
    simp only [hsort] at hrun
    cases hloop : hashLoop t.edges t.labels vord [] [] with
    | error e => simp only [hloop] at hrun; cases hrun
    | ok p =>
      rcases p with ⟨verts, hmap⟩
      simp only [hloop] at hrun
      cases hrun
      have hndv : vord.Nodup := ((sortByKey_perm hsort).nodup_iff).mpr hnd
      rcases hashLoop_spec t.edges t.labels vord [] [] verts hmap hloop hndv
        (fun x _ => rfl) with ⟨_, hall⟩
      exact hall

/-- C3 witness: the recurrence instantiated on the canonicalized star DAG
rooted at its center. -/
theorem c3_witness :
    hash_trees ⟨[0, 1, 2], [(0, [2, 1]), (1, []), (2, [])], [(0, 3), (1, 2), (2, 1)],
        [(0, "a"), (1, "b"), (2, "c")]⟩ =
      .ok ⟨[(2, 0, 1, "c"), (1, 0, 1, "b"), (0, 2, 1, "a(c,b)")],
        [("c", [2]), ("b", [1]), ("a(c,b)", [0])], [2, 1, 0]⟩ ∧
    ([0, 1, 2] : List Nat).Nodup ∧
    (∀ v ∈ ([2, 1, 0] : List Nat), ∃ lb,
      dlookup [(0, "a"), (1, "b"), (2, "c")] v = some lb ∧
      ((dlookup [(0, [2, 1]), (1, []), (2, [])] v = none ∨
        dlookup [(0, [2, 1]), (1, []), (2, [])] v = some []) →
        dlookup [(2, 0, 1, "c"), (1, 0, 1, "b"), (0, 2, 1, "a(c,b)")] v = some (0, 1, lb)) ∧
      (∀ l, dlookup [(0, [2, 1]), (1, []), (2, [])] v = some l → l ≠ [] →
        (∀ c ∈ l, (dlookup [(2, 0, 1, "c"), (1, 0, 1, "b"), (0, 2, 1, "a(c,b)")] c).isSome) ∧
        dlookup [(2, 0, 1, "c"), (1, 0, 1, "b"), (0, 2, 1, "a(c,b)")] v =
          some (l.length +
            (childWeights [(2, 0, 1, "c"), (1, 0, 1, "b"), (0, 2, 1, "a(c,b)")] l).sum, 1,
            lb ++ "(" ++ String.intercalate ","
              (childIds [(2, 0, 1, "c"), (1, 0, 1, "b"), (0, 2, 1, "a(c,b)")] l) ++ ")"))) :=
  ⟨by decide, by decide,
   c3_canonicalizer_recurrence
     ⟨[0, 1, 2], [(0, [2, 1]), (1, []), (2, [])], [(0, 3), (1, 2), (2, 1)],
       [(0, "a"), (1, "b"), (2, "c")]⟩
     ⟨[(2, 0, 1, "c"), (1, 0, 1, "b"), (0, 2, 1, "a(c,b)")],
       [("c", [2]), ("b", [1]), ("a(c,b)", [0])], [2, 1, 0]⟩
     (by decide) (by decide)⟩

theorem freqAdd_self_eq_double {f f2 : Freq} (h : freqAdd f f = .ok f2) :
    f2 = doubleFreq f := by
  cases f with
  | scalar n =>
    simp only [freqAdd] at h
    cases h
    simp [doubleFreq, Nat.two_mul]
  | vec l =>
    simp only [freqAdd] at h
    cases h
    simp [doubleFreq]

theorem freqAdd_assoc {a b c ab bc abc : Freq} (h1 : freqAdd a b = .ok ab)
    (h2 : freqAdd b c = .ok bc) (h3 : freqAdd ab c = .ok abc) :
    freqAdd a bc = .ok abc := by
  cases a with
  | scalar x =>
    cases b with
    | scalar y =>
      simp only [freqAdd] at h1
      cases h1
      cases c with
      | scalar z =>
        simp only [freqAdd] at h2 h3 ⊢
        cases h2; cases h3
        simp [Nat.add_assoc]
      | vec lz => simp [freqAdd] at h2
    | vec ly => simp [freqAdd] at h1
  | vec lx =>
    cases b with
    | scalar y => simp [freqAdd] at h1
    | vec ly =>
      simp only [freqAdd] at h1
      cases h1
      cases c with
      | scalar z => simp [freqAdd] at h2
      | vec lz =>
        simp only [freqAdd] at h2 h3 ⊢
        cases h2; cases h3
        simp [List.append_assoc]

/-- Monotonicity of the merger loop: hash-map entries are never changed
once present, and a vertex record keeps its slot 0 and identity (only the
frequency slot is updated).  The `idx` hypothesis states that the next
node index is fresh, which the loop preserves. -/
theorem bigLoop_mono (d : SingleDag) (merge : Bool) (nf : Nat) :
    ∀ (l : List Nat) (S : BigDag) (idx : Nat) (B : BigDag) (idxF : Nat),
      bigLoop d merge nf l S idx = .ok (B, idxF) →
      (∀ n, idx ≤ n → dlookup S.D_vertices n = none) →
      (∀ k nl, dlookup S.D_hash_map k = some nl → dlookup B.D_hash_map k = some nl) ∧
      (∀ n s0 f id, dlookup S.D_vertices n = some (s0, f, id) →
        ∃ f2, dlookup B.D_vertices n = some (s0, f2, id)) := by
  intro l
  induction l with
  | nil =>
    intro S idx B idxF hrun _
    simp only [bigLoop] at hrun
    cases hrun
    exact ⟨fun k nl h => h, fun n s0 f id h => ⟨f, h⟩⟩
  | cons q rest ih =>
    intro S idx B idxF hrun hidx
    simp only [bigLoop] at hrun
    cases hval : dlookup d.vertices q with
    | none => rw [hval] at hrun; cases hrun
    | some val =>
      simp only [hval] at hrun
      cases hhm : dlookup S.D_hash_map val.2.2 with
      | some nl =>
        simp only [hhm] at hrun
        cases hhd : nl.head? with
        | none => simp only [hhd] at hrun; cases hrun
        | some node =>
          simp only [hhd] at hrun
          cases hcur : dlookup S.D_vertices node with
          | none => simp only [hcur] at hrun; cases hrun
          | some cur =>
            simp only [hcur] at hrun
            cases hfr : (if merge then freqAdd cur.2.1 val.2.1
                else freqAddLast cur.2.1 val.2.1) with
            | error e => rw [hfr] at hrun; cases hrun
            | ok fr2 =>
              rw [hfr] at hrun
              have hnode_lt : ¬ idx ≤ node := by
                intro hle
                rw [hidx node hle] at hcur
                cases hcur
              have hidx2 : ∀ n, idx ≤ n →
                  dlookup (dinsert S.D_vertices node (cur.1, fr2, cur.2.2)) n = none := by
                intro n hn
                have hne : n ≠ node := fun hh => hnode_lt (hh ▸ hn)
                rw [dlookup_dinsert_ne _ node n _ hne]
                exact hidx n hn
              rcases ih _ idx B idxF hrun hidx2 with ⟨ihh, ihv⟩
              refine ⟨ihh, ?_⟩
              intro n s0 f id hn
              by_cases hne : n = node
              · subst hne
                rw [hcur] at hn
                cases hn
                exact ihv n s0 fr2 id (by
                  rw [dlookup_dinsert_self])
              · exact ihv n s0 f id (by
                  rw [dlookup_dinsert_ne _ node n _ hne]; exact hn)
      | none =>
        simp only [hhm] at hrun
        cases hlb : dlookup d.labels q with
        | none => simp only [hlb] at hrun; cases hrun
        | some lb =>
          simp only [hlb] at hrun
          cases hch : dlookup d.edges q with
          | none => simp only [hch] at hrun; cases hrun
          | some children =>
            simp only [hch] at hrun
            cases hbe : buildEdges d.vertices S.D_hash_map children [] with
            | error e => simp only [hbe] at hrun; cases hrun
            | ok d_edges =>
              simp only [hbe] at hrun
              cases hfq : (if merge then Except.ok val.2.1
                  else match val.2.1 with
                       | .scalar n => Except.ok (Freq.vec (List.replicate (nf - 1) 0 ++ [n]))
                       | .vec _ => Except.error PyExc.typeError) with
              | error e => rw [hfq] at hrun; cases hrun
              | ok freq =>
                rw [hfq] at hrun
                have hSidx : dlookup S.D_vertices idx = none := hidx idx (le_refl idx)
                have hidx2 : ∀ n, idx + 1 ≤ n →
                    dlookup (dinsert S.D_vertices idx (val.2.1, freq, val.2.2)) n = none := by
                  intro n hn
                  have hne : n ≠ idx := by omega
                  rw [dlookup_dinsert_ne _ idx n _ hne]
                  exact hidx n (by omega)
                rcases ih _ (idx + 1) B idxF hrun hidx2 with ⟨ihh, ihv⟩
                refine ⟨?_, ?_⟩
                · intro k nl hk
                  have hne : k ≠ val.2.2 := by
                    intro hh
                    rw [hh, hhm] at hk
                    cases hk
                  exact ihh k nl (by
                    rw [dlookup_dinsert_ne _ val.2.2 k _ hne]; exact hk)
                · intro n s0 f id hn
                  have hne : n ≠ idx := by
                    intro hh
                    rw [hh, hSidx] at hn
                    cases hn
                  exact ihv n s0 f id (by
                    rw [dlookup_dinsert_ne _ idx n _ hne]; exact hn)

/-- Reduction of a Boolean `if true`. -/
theorem if_true_eq {γ : Sort _} (a b : γ) : (if true then a else b) = a := rfl

/-- Core of claim C5: run the merge-mode fold of one canonical DAG twice,
once from a state `S` replaying the build of `B1` and once from a state
`T` whose structure already equals `B1` and whose frequencies carry the
partial second-round additions; the second run ends in `B1` with every
frequency doubled. -/
theorem bigLoop_double (d : SingleDag) :
    ∀ (l : List Nat) (S T : BigDag) (idxS idxT : Nat) (B1 B2 : BigDag) (i1 i2 : Nat),
      bigLoop d true 1 l S idxS = .ok (B1, i1) →
      bigLoop d true 1 l T idxT = .ok (B2, i2) →
      T.D_hash_map = B1.D_hash_map →
      T.D_edges = B1.D_edges →
      T.D_labels = B1.D_labels →
      (∀ n s0 f id, dlookup S.D_vertices n = some (s0, f, id) →
        ∃ fB fT, dlookup B1.D_vertices n = some (s0, fB, id) ∧
          freqAdd fB f = .ok fT ∧ dlookup T.D_vertices n = some (s0, fT, id)) →
      (∀ n, dlookup S.D_vertices n = none →
        dlookup T.D_vertices n = dlookup B1.D_vertices n) →
      (∀ n, idxS ≤ n → dlookup S.D_vertices n = none) →
      B2.D_hash_map = B1.D_hash_map ∧ B2.D_edges = B1.D_edges ∧
      B2.D_labels = B1.D_labels ∧
      (∀ n, dlookup B2.D_vertices n =
        (dlookup B1.D_vertices n).map (fun v => (v.1, doubleFreq v.2.1, v.2.2))) := by
  intro l
  induction l with
  | nil =>
    intro S T idxS idxT B1 B2 i1 i2 h1 h2 hR1h hR1e hR1l hR2 hR3 hR5
    simp only [bigLoop] at h1 h2
    cases h1
    cases h2
    refine ⟨hR1h, hR1e, hR1l, ?_⟩
    intro n
    cases hB1 : dlookup S.D_vertices n with
    | none => rw [hR3 n hB1, hB1]; rfl
    | some v =>
      rcases v with ⟨s0, f, id⟩
      rcases hR2 n s0 f id hB1 with ⟨fB, fT, e1, e2, e3⟩
      rw [hB1] at e1
      cases e1
      rw [e3, freqAdd_self_eq_double e2]
      rfl
  | cons q rest ih =>
    intro S T idxS idxT B1 B2 i1 i2 h1 h2 hR1h hR1e hR1l hR2 hR3 hR5
    rcases bigLoop_mono d true 1 (q :: rest) S idxS B1 i1 h1 hR5 with ⟨hmonoH, _⟩
    simp only [bigLoop, if_true_eq] at h1 h2
    cases hval : dlookup d.vertices q with
    | none => rw [hval] at h1; cases h1
    | some val =>
      simp only [hval] at h1 h2
      cases hhm : dlookup S.D_hash_map val.2.2 with
      | some nl =>
        -- the identity is already shared: both runs take the update branch
        simp only [hhm] at h1
        cases hhd : nl.head? with
        | none => simp only [hhd] at h1; cases h1
        | some node =>
          simp only [hhd] at h1
          cases hcur : dlookup S.D_vertices node with
          | none => simp only [hcur] at h1; cases h1
          | some cur =>
            rcases cur with ⟨s0c, fS, idc⟩
            simp only [hcur] at h1
            cases hfrS : freqAdd fS val.2.1 with
            | error e => simp only [hfrS] at h1; cases h1
            | ok fr2S =>
              simp only [hfrS] at h1
              have hTk : dlookup T.D_hash_map val.2.2 = some nl := by
                rw [hR1h]; exact hmonoH val.2.2 nl hhm
              rcases hR2 node s0c fS idc hcur with ⟨fB, fT, hBnode, hadd1, hTnode⟩
              simp only [hTk, hhd, hTnode] at h2
              cases hfrT : freqAdd fT val.2.1 with
              | error e => simp only [hfrT] at h2; cases h2
              | ok fr2T =>
                simp only [hfrT] at h2
                have hnodeS : ¬ idxS ≤ node := by
                  intro hle
                  rw [hR5 node hle] at hcur
                  cases hcur
                refine ih _ _ idxS idxT B1 B2 i1 i2 h1 h2 hR1h hR1e hR1l
                  ?_ ?_ ?_
                · intro n s0 f id hn
                  by_cases hne : n = node
                  · subst hne
                    rw [dlookup_dinsert_self] at hn
                    cases hn
                    exact ⟨fB, fr2T, hBnode, freqAdd_assoc hadd1 hfrS hfrT,
                      by rw [dlookup_dinsert_self]⟩
                  · rw [dlookup_dinsert_ne _ node n _ hne] at hn
                    rcases hR2 n s0 f id hn with ⟨fB2, fT2, e1, e2, e3⟩
                    exact ⟨fB2, fT2, e1, e2,
                      by rw [dlookup_dinsert_ne _ node n _ hne]; exact e3⟩
                · intro n hn
                  by_cases hne : n = node
                  · subst hne
                    rw [dlookup_dinsert_self] at hn
                    cases hn
                  · rw [dlookup_dinsert_ne _ node n _ hne] at hn
                    rw [dlookup_dinsert_ne _ node n _ hne]
                    exact hR3 n hn
                · intro n hn
                  have hne : n ≠ node := fun hh => hnodeS (hh ▸ hn)
                  rw [dlookup_dinsert_ne _ node n _ hne]
                  exact hR5 n hn
      | none =>
        -- a fresh identity: the first run allocates, the second updates
        simp only [hhm] at h1
        cases hlb : dlookup d.labels q with
        | none => simp only [hlb] at h1; cases h1
        | some lb =>
          simp only [hlb] at h1
          cases hch : dlookup d.edges q with
          | none => simp only [hch] at h1; cases h1
          | some children =>
            simp only [hch] at h1
            cases hbe : buildEdges d.vertices S.D_hash_map children [] with
            | error e => simp only [hbe] at h1; cases h1
            | ok d_edges =>
              simp only [hbe] at h1
              have hSidx : dlookup S.D_vertices idxS = none := hR5 idxS (le_refl idxS)
              have hidx2 : ∀ n, idxS + 1 ≤ n →
                  dlookup (dinsert S.D_vertices idxS (val.2.1, val.2.1, val.2.2)) n
                    = none := by
                intro n hn
                have hne : n ≠ idxS := by omega
                rw [dlookup_dinsert_ne _ idxS n _ hne]
                exact hR5 n (by omega)
              rcases bigLoop_mono d true 1 rest _ (idxS + 1) B1 i1 h1 hidx2 with
                ⟨hmH2, hmV2⟩
              have hB1k : dlookup B1.D_hash_map val.2.2 = some [idxS] := by
                apply hmH2
                simp only [dlookup_dinsert_self]
              rcases hmV2 idxS val.2.1 val.2.1 val.2.2
                (by simp only [dlookup_dinsert_self]) with ⟨fB, hB1idx⟩
              have hTk : dlookup T.D_hash_map val.2.2 = some [idxS] := by
                rw [hR1h]; exact hB1k
              have hTidx : dlookup T.D_vertices idxS = some (val.2.1, fB, val.2.2) := by
                rw [hR3 idxS hSidx]; exact hB1idx
              simp only [hTk, List.head?, hTidx] at h2
              cases hfrT : freqAdd fB val.2.1 with
              | error e => simp only [hfrT] at h2; cases h2
              | ok fr2T =>
                simp only [hfrT] at h2
                refine ih _ _ (idxS + 1) idxT B1 B2 i1 i2 h1 h2 hR1h hR1e hR1l
                  ?_ ?_ hidx2
                · intro n s0 f id hn
                  by_cases hne : n = idxS
                  · subst hne
                    rw [dlookup_dinsert_self] at hn
                    cases hn
                    exact ⟨fB, fr2T, hB1idx, hfrT, by rw [dlookup_dinsert_self]⟩
                  · rw [dlookup_dinsert_ne _ idxS n _ hne] at hn
                    rcases hR2 n s0 f id hn with ⟨fB2, fT2, e1, e2, e3⟩
                    exact ⟨fB2, fT2, e1, e2,
                      by rw [dlookup_dinsert_ne _ idxS n _ hne]; exact e3⟩
                · intro n hn
                  by_cases hne : n = idxS
                  · subst hne
                    rw [dlookup_dinsert_self] at hn
                    cases hn
                  · rw [dlookup_dinsert_ne _ idxS n _ hne] at hn
                    rw [dlookup_dinsert_ne _ idxS n _ hne]
                    exact hR3 n hn

/-- C5: folding the same single-root canonical DAG into an empty Big DAG
twice in merge mode yields exactly the same global structure (hash map,
node indices, edge lists and labels) as folding it once, with every
node frequency doubled. -/
theorem c5_merge_fold_twice_doubles (d : SingleDag) (B1 B2 : BigDag)
    (h1 : big_dag_append d none true = .ok B1)
    (h2 : big_dag_append d (some B1) true = .ok B2) :
    B2.D_hash_map = B1.D_hash_map ∧ B2.D_edges = B1.D_edges ∧
    B2.D_labels = B1.D_labels ∧
    (∀ n, dlookup B2.D_vertices n =
      (dlookup B1.D_vertices n).map (fun v => (v.1, doubleFreq v.2.1, v.2.2))) := by
  simp only [big_dag_append, if_true_eq] at h1 h2
  cases hr1 : bigLoop d true 1 d.v_ordered ⟨[], [], [], []⟩ 0 with
  | error e => rw [hr1] at h1; cases h1
  | ok p1 =>
    rcases p1 with ⟨B1x, i1⟩
    simp only [hr1] at h1
    cases h1
    cases hr2 : bigLoop d true 1 d.v_ordered B1 B1.D_vertices.length with
    | error e => rw [hr2] at h2; cases h2
    | ok p2 =>
      rcases p2 with ⟨B2x, i2⟩
      simp only [hr2] at h2
      cases h2
      exact bigLoop_double d d.v_ordered ⟨[], [], [], []⟩ B1 0 B1.D_vertices.length
        B1 B2 i1 i2 hr1 hr2 rfl rfl rfl
        (fun n s0 f id hn => by simp [dlookup] at hn)
        (fun n hn => rfl)
        (fun n hn => rfl)

/-- C5 witness: folding `dPair` twice from empty doubles both node
frequencies and changes nothing else. -/
theorem c5_witness :
    big_dag_append dPair none true = .ok b1Pair ∧
    big_dag_append dPair (some b1Pair) true = .ok b2Pair ∧
    (b2Pair.D_hash_map = b1Pair.D_hash_map ∧ b2Pair.D_edges = b1Pair.D_edges ∧
      b2Pair.D_labels = b1Pair.D_labels ∧
      ∀ n, dlookup b2Pair.D_vertices n =
        (dlookup b1Pair.D_vertices n).map (fun v => (v.1, doubleFreq v.2.1, v.2.2))) :=
  ⟨by decide, by decide,
   c5_merge_fold_twice_doubles dPair b1Pair b2Pair (by decide) (by decide)⟩

theorem remaining_congr (ord ord2 : List (Nat × Int)) (w : Nat) :
    ∀ E : List (Nat × List Nat),
      (∀ k, k ∈ dkeys E → dlookup ord2 k = dlookup ord k) →
      remaining ord2 w E = remaining ord w E := by
  intro E
  induction E with
  | nil => intro _; rfl
  | cons p rest ih =>
    intro hk
    rcases p with ⟨k, l⟩
    simp only [remaining]
    rw [hk k (List.mem_cons_self _ _), ih (fun k2 hk2 => hk k2 (List.mem_cons_of_mem _ hk2))]

/-- Ranking a previously unranked vertex `e` removes exactly the
occurrences of `w` in the edge list of `e` from the remaining count. -/
theorem remaining_dinsert (ord0 : List (Nat × Int)) (e : Nat) (vis : Int)
    (w : Nat) (ce : List Nat) :
    ∀ E : List (Nat × List Nat), (dkeys E).Nodup →
      dlookup ord0 e = none → dlookup E e = some ce →
      remaining (dinsert ord0 e vis) w E + ce.count w = remaining ord0 w E := by
  intro E
  induction E with
  | nil => intro _ _ hE; cases hE
  | cons p rest ih =>
    intro hnd horde hE
    rcases p with ⟨k, l⟩
    have hnd2 : (k :: dkeys rest).Nodup := by simpa [dkeys] using hnd
    by_cases hk : k = e
    · subst hk
      simp only [dlookup, if_pos rfl] at hE
      cases hE
      have h1 : dlookup (dinsert ord0 k vis) k = some vis := dlookup_dinsert_self _ _ _
      have hknotin : k ∉ dkeys rest := (List.nodup_cons.mp hnd2).1
      have htail : remaining (dinsert ord0 k vis) w rest = remaining ord0 w rest := by
        apply remaining_congr
        intro k2 hk2
        have hne : k2 ≠ k := fun hh => hknotin (hh ▸ hk2)
        exact dlookup_dinsert_ne _ _ _ _ hne
      simp only [remaining, h1, htail, horde, Option.isNone_some, Option.isNone_none,
        Bool.false_eq_true, if_false, if_true]
      omega
    · have hne : e ≠ k := fun hh => hk hh.symm
      have hE2 : dlookup rest e = some ce := by
        simpa [dlookup, hk] using hE
      have hlk : dlookup (dinsert ord0 e vis) k = dlookup ord0 k :=
        dlookup_dinsert_ne _ _ _ _ hk
      have := ih (List.nodup_cons.mp hnd2).2 horde hE2
      simp only [remaining, hlk]
      omega

/-- If no in-edges into `w` remain unranked, every source of an edge into
`w` has already been ranked. -/
theorem remaining_zero_parents (ord0 : List (Nat × Int)) (w : Nat) :
    ∀ E : List (Nat × List Nat), remaining ord0 w E = 0 →
      ∀ u l, dlookup E u = some l → w ∈ l → (dlookup ord0 u).isSome := by
  intro E
  induction E with
  | nil => intro _ u l hE; cases hE
  | cons p rest ih =>
    intro hz u l hE hw
    rcases p with ⟨k, el⟩
    simp only [remaining] at hz
    by_cases hk : k = u
    · subst hk
      simp only [dlookup, if_pos rfl] at hE
      cases hE
      cases ho : (dlookup ord0 k).isNone
      · simp only [Option.isNone_eq_false_iff] at ho
        exact ho
      · rw [ho] at hz
        simp only [if_true] at hz
        have : 0 < l.count w := List.count_pos_iff.mpr hw
        omega
    · have hE2 : dlookup rest u = some l := by simpa [dlookup, hk] using hE
      exact ih (by omega) u l hE2 hw

theorem dlookup_addCounts (w : Nat) :
    ∀ (l : List Nat) (acc : List (Nat × Nat)),
      dlookup (addCounts acc l) w =
        match dlookup acc w with
        | some c => some (c + l.count w)
        | none => if l.count w = 0 then none else some (l.count w) := by
  intro l
  induction l with
  | nil =>
    intro acc
    simp only [addCounts, List.count_nil]
    cases dlookup acc w <;> simp
  | cons v rest ih =>
    intro acc
    simp only [addCounts]
    have hcnt : (v :: rest).count w = rest.count w + if w = v then 1 else 0 := by
      rcases eq_or_ne w v with h | h
      · subst h; simp [List.count_cons]
      · simp [List.count_cons, h, h.symm]
    cases hv : dlookup acc v with
    | none =>
      rw [ih (dinsert acc v 1)]
      by_cases hw : w = v
      · subst hw
        rw [dlookup_dinsert_self, hv, hcnt]
        simp
        omega
      · rw [dlookup_dinsert_ne acc v w 1 hw, hcnt]
        cases dlookup acc w <;> simp [hw]
    | some c =>
      rw [ih (dinsert acc v (c + 1))]
      by_cases hw : w = v
      · subst hw
        rw [dlookup_dinsert_self, hv, hcnt]
        simp
        omega
      · rw [dlookup_dinsert_ne acc v w (c + 1) hw, hcnt]
        cases dlookup acc w <;> simp [hw]

theorem dlookup_computeIndegrees_aux (w : Nat) :
    ∀ (rest : List (Nat × List Nat)) (acc : List (Nat × Nat)),
      dlookup (computeIndegrees.computeIndegrees' acc rest) w =
        match dlookup acc w with
        | some c => some (c + remaining [] w rest)
        | none => if remaining [] w rest = 0 then none
                  else some (remaining [] w rest) := by
  intro rest
  induction rest with
  | nil =>
    intro acc
    simp only [computeIndegrees.computeIndegrees', remaining]
    cases dlookup acc w <;> simp
  | cons p rest ih =>
    intro acc
    rcases p with ⟨k, e⟩
    simp only [computeIndegrees.computeIndegrees', remaining, dlookup,
      Option.isNone_none, if_true]
    rw [ih (addCounts acc e), dlookup_addCounts]
    cases dlookup acc w with
    | some c =>
      simp only []
      rw [Nat.add_assoc]
    | none =>
      by_cases hc : e.count w = 0
      · simp [hc]
      · simp only [hc, Bool.false_eq_true, if_false, if_neg hc]
        by_cases hr : remaining [] w rest = 0
        · simp [hr, hc]
        · have : ¬ (e.count w + remaining [] w rest = 0) := by omega
          simp [this]

theorem dlookup_computeIndegrees (E : List (Nat × List Nat)) (w : Nat) :
    dlookup (computeIndegrees E) w =
      if remaining [] w E = 0 then none else some (remaining [] w E) := by
  cases E with
  | nil => simp [computeIndegrees, dlookup, remaining]
  | cons p rest =>
    rcases p with ⟨k, e⟩
    simp only [computeIndegrees, remaining, dlookup, Option.isNone_none, if_true]
    rw [dlookup_computeIndegrees_aux, dlookup_addCounts]
    simp only [dlookup]
    by_cases hc : e.count w = 0
    · simp only [hc, if_pos rfl]
      by_cases hr : remaining [] w rest = 0 <;> simp [hr, hc]
    · simp only [if_neg hc]
      have : ¬ (e.count w + remaining [] w rest = 0) := by omega
      simp [this]

theorem dkeys_nodup_addCounts :
    ∀ (l : List Nat) (acc : List (Nat × Nat)),
      (dkeys acc).Nodup → (dkeys (addCounts acc l)).Nodup := by
  intro l
  induction l with
  | nil => intro acc h; simpa [addCounts] using h
  | cons v rest ih =>
    intro acc h
    simp only [addCounts]
    cases dlookup acc v with
    | none => exact ih _ (dkeys_nodup_dinsert v 1 h)
    | some c => exact ih _ (dkeys_nodup_dinsert v (c + 1) h)

theorem dkeys_nodup_computeIndegrees (E : List (Nat × List Nat)) :
    (dkeys (computeIndegrees E)).Nodup := by
  cases E with
  | nil => simp [computeIndegrees, dkeys]
  | cons p rest =>
    rcases p with ⟨k, e⟩
    simp only [computeIndegrees]
    have hstart : (dkeys (addCounts ([] : List (Nat × Nat)) e)).Nodup :=
      dkeys_nodup_addCounts e [] (by simp [dkeys])
    clear hstart
    have haux : ∀ (rest2 : List (Nat × List Nat)) (acc : List (Nat × Nat)),
        (dkeys acc).Nodup →
        (dkeys (computeIndegrees.computeIndegrees' acc rest2)).Nodup := by
      intro rest2
      induction rest2 with
      | nil => intro acc h; simpa [computeIndegrees.computeIndegrees'] using h
      | cons p2 rest2 ih =>
        intro acc h
        rcases p2 with ⟨k2, e2⟩
        simp only [computeIndegrees.computeIndegrees']
        exact ih _ (dkeys_nodup_addCounts e2 acc h)
    exact haux rest _ (dkeys_nodup_addCounts e [] (by simp [dkeys]))

theorem dlookup_dremove_self [DecidableEq α] :
    ∀ (d : List (α × β)) (a : α), (dkeys d).Nodup →
      dlookup (dremove d a) a = none := by
  intro d
  induction d with
  | nil => intro a _; rfl
  | cons p rest ih =>
    intro a hnd
    rcases p with ⟨k, v⟩
    have hnd2 : (k :: dkeys rest).Nodup := by simpa [dkeys] using hnd
    by_cases hk : k = a
    · subst hk
      have hred : dremove ((k, v) :: rest) k = rest := by simp [dremove]
      rw [hred]
      cases h : dlookup rest k with
      | none => rfl
      | some b =>
        exact absurd (dlookup_mem_keys h) (List.nodup_cons.mp hnd2).1
    · simp only [dremove, if_neg hk, dlookup, if_neg hk]
      exact ih a (List.nodup_cons.mp hnd2).2

theorem charListLe_refl : ∀ l : List Char, charListLe l l = true := by
  intro l
  induction l with
  | nil => rfl
  | cons a as ih => simp [charListLe, ih]

theorem keyLeB_refl (a : Int × String) : keyLeB a a = true := by
  unfold keyLeB strLeB
  simp [charListLe_refl]

/-- Specification of the child-processing fold of the Kahn loop.  `R w` is
the number of in-edge occurrences into `w` from unranked vertices other
than the vertex currently being ranked; the fold keeps every stored
in-degree an upper bound on `R w` plus the still-unprocessed occurrences,
and a vertex is moved to the queue exactly when nothing remains. -/
theorem processChildren_spec (R : Nat → Nat) :
    ∀ (l : List Nat) (q : List Nat) (ind : List (Nat × Nat))
      (q2 : List Nat) (ind2 : List (Nat × Nat)),
      processChildren l q ind = (q2, ind2) →
      (dkeys ind).Nodup →
      q.Nodup →
      (∀ x ∈ q, dlookup ind x = none) →
      (∀ w c, dlookup ind w = some c → 1 ≤ c ∧ R w + l.count w ≤ c) →
      (∀ w, dlookup ind w = none → R w + l.count w = 0) →
      (dkeys ind2).Nodup ∧
      q2.Nodup ∧
      (∀ w c2, dlookup ind2 w = some c2 →
        (1 ≤ c2 ∧ R w ≤ c2) ∧ (dlookup ind w).isSome) ∧
      (∀ w, dlookup ind2 w = none → R w = 0) ∧
      (∀ w, dlookup ind w = none → dlookup ind2 w = none) ∧
      (∀ x ∈ q2, x ∈ q ∨ ((dlookup ind x).isSome ∧ dlookup ind2 x = none)) ∧
      (∀ x ∈ q2, dlookup ind2 x = none) := by
  intro l
  induction l with
  | nil =>
    intro q ind q2 ind2 hrun hndi hndq hq HS HN
    simp only [processChildren] at hrun
    cases hrun
    refine ⟨hndi, hndq, ?_, ?_, fun w h => h, fun x hx => Or.inl hx, hq⟩
    · intro w c2 h
      rcases HS w c2 h with ⟨h1, h2⟩
      simp only [List.count_nil] at h2
      exact ⟨⟨h1, by omega⟩, by simp [h]⟩
    · intro w h
      have := HN w h
      simp only [List.count_nil] at this
      omega
  | cons k rest ih =>
    intro q ind q2 ind2 hrun hndi hndq hq HS HN
    simp only [processChildren] at hrun
    cases hk : dlookup ind k with
    | none =>
      exfalso
      have := HN k hk
      have hcnt : (k :: rest).count k = rest.count k + 1 := List.count_cons_self k rest
      omega
    | some c =>
      simp only [hk] at hrun
      have hkq : k ∉ q := by
        intro hkq
        rw [hq k hkq] at hk
        cases hk
      have hcnt : (k :: rest).count k = rest.count k + 1 := List.count_cons_self k rest
      rcases HS k c hk with ⟨hc1, hc2⟩
      by_cases hc : c = 1
      · subst hc
        rw [if_pos rfl] at hrun
        have hRk : R k = 0 ∧ rest.count k = 0 := by omega
        have hnd' : (dkeys (dremove ind k)).Nodup := dkeys_nodup_dremove k hndi
        have hself : dlookup (dremove ind k) k = none := dlookup_dremove_self ind k hndi
        have hndq' : (q ++ [k]).Nodup := by
          rw [List.nodup_append]
          exact ⟨hndq, List.nodup_singleton k, by
            intro x hx
            simp only [List.mem_singleton]
            intro hh
            exact hkq (hh ▸ hx)⟩
        have hq' : ∀ x ∈ q ++ [k], dlookup (dremove ind k) x = none := by
          intro x hx
          rcases List.mem_append.mp hx with hx | hx
          · have hne : x ≠ k := fun hh => hkq (hh ▸ hx)
            rw [dlookup_dremove_ne ind k x hne]
            exact hq x hx
          · rcases List.mem_singleton.mp hx with rfl
            exact hself
        have HS' : ∀ w c2, dlookup (dremove ind k) w = some c2 →
            1 ≤ c2 ∧ R w + rest.count w ≤ c2 := by
          intro w c2 hw
          have hne : w ≠ k := by
            intro hh
            rw [hh, hself] at hw
            cases hw
          rw [dlookup_dremove_ne ind k w hne] at hw
          rcases HS w c2 hw with ⟨h1, h2⟩
          rw [List.count_cons_of_ne hne] at h2
          exact ⟨h1, h2⟩
        have HN' : ∀ w, dlookup (dremove ind k) w = none → R w + rest.count w = 0 := by
          intro w hw
          by_cases hne : w = k
          · subst hne
            omega
          · rw [dlookup_dremove_ne ind k w hne] at hw
            have := HN w hw
            rw [List.count_cons_of_ne hne] at this
            exact this
        rcases ih (q ++ [k]) (dremove ind k) q2 ind2 hrun hnd' hndq' hq' HS' HN' with
          ⟨ihnd, ihq, ihS, ihN, ihM, ihQ, ihQ2⟩
        refine ⟨ihnd, ihq, ?_, ihN, ?_, ?_, ihQ2⟩
        · intro w c2 hw
          rcases ihS w c2 hw with ⟨hgood, hsome⟩
          refine ⟨hgood, ?_⟩
          have hne : w ≠ k := by
            intro hh
            rw [hh, hself] at hsome
            cases hsome
          rw [← dlookup_dremove_ne ind k w hne]
          exact hsome
        · intro w hw
          have hne : w ≠ k := by
            intro hh
            rw [hh, hk] at hw
            cases hw
          exact ihM w (by rw [dlookup_dremove_ne ind k w hne]; exact hw)
        · intro x hx
          rcases ihQ x hx with hx2 | ⟨hsome, hnone⟩
          · rcases List.mem_append.mp hx2 with hx3 | hx3
            · exact Or.inl hx3
            · rcases List.mem_singleton.mp hx3 with rfl
              exact Or.inr ⟨by simp [hk], ihM x hself⟩
          · have hne : x ≠ k := by
              intro hh
              rw [hh, hself] at hsome
              cases hsome
            rw [dlookup_dremove_ne ind k x hne] at hsome
            exact Or.inr ⟨hsome, hnone⟩
      · rw [if_neg hc] at hrun
        have hnd' : (dkeys (dinsert ind k (c - 1))).Nodup := dkeys_nodup_dinsert k (c - 1) hndi
        have hq' : ∀ x ∈ q, dlookup (dinsert ind k (c - 1)) x = none := by
          intro x hx
          have hne : x ≠ k := fun hh => hkq (hh ▸ hx)
          rw [dlookup_dinsert_ne ind k x (c - 1) hne]
          exact hq x hx
        have HS' : ∀ w c2, dlookup (dinsert ind k (c - 1)) w = some c2 →
            1 ≤ c2 ∧ R w + rest.count w ≤ c2 := by
          intro w c2 hw
          by_cases hne : w = k
          · subst hne
            rw [dlookup_dinsert_self] at hw
            cases hw
            omega
          · rw [dlookup_dinsert_ne ind k w (c - 1) hne] at hw
            rcases HS w c2 hw with ⟨h1, h2⟩
            rw [List.count_cons_of_ne hne] at h2
            exact ⟨h1, h2⟩
        have HN' : ∀ w, dlookup (dinsert ind k (c - 1)) w = none →
            R w + rest.count w = 0 := by
          intro w hw
          by_cases hne : w = k
          · subst hne
            rw [dlookup_dinsert_self] at hw
            cases hw
          · rw [dlookup_dinsert_ne ind k w (c - 1) hne] at hw
            have := HN w hw
            rw [List.count_cons_of_ne hne] at this
            exact this
        rcases ih q (dinsert ind k (c - 1)) q2 ind2 hrun hnd' hndq hq' HS' HN' with
          ⟨ihnd, ihq, ihS, ihN, ihM, ihQ, ihQ2⟩
        refine ⟨ihnd, ihq, ?_, ihN, ?_, ?_, ihQ2⟩
        · intro w c2 hw
          rcases ihS w c2 hw with ⟨hgood, hsome⟩
          refine ⟨hgood, ?_⟩
          by_cases hne : w = k
          · subst hne
            simp [hk]
          · rw [dlookup_dinsert_ne ind k w (c - 1) hne] at hsome
            exact hsome
        · intro w hw
          have hne : w ≠ k := by
            intro hh
            rw [hh, hk] at hw
            cases hw
          exact ihM w (by rw [dlookup_dinsert_ne ind k w (c - 1) hne]; exact hw)
        · intro x hx
          rcases ihQ x hx with hx2 | ⟨hsome, hnone⟩
          · exact Or.inl hx2
          · by_cases hne : x = k
            · subst hne
              exact Or.inr ⟨by simp [hk], hnone⟩
            · rw [dlookup_dinsert_ne ind k x (c - 1) hne] at hsome
              exact Or.inr ⟨hsome, hnone⟩

/-- Master invariant of the Kahn loop in `odd`: on success, every ranked
vertex has all of its in-edge sources ranked strictly higher. -/
theorem oddLoop_ranks_parents_higher (labels : List (Nat × String))
    (E : List (Nat × List Nat)) (hE : (dkeys E).Nodup) :
    ∀ (fuel : Nat) (q : List Nat) (ind : List (Nat × Nat))
      (ord : List (Nat × Int)) (vis : Int) (ordF : List (Nat × Int)),
      oddLoop labels E fuel q ind ord vis = .ok ordF →
      (dkeys ind).Nodup →
      q.Nodup →
      (∀ w r, dlookup ord w = some r → vis < r) →
      (∀ w, (dlookup ind w).isSome → dlookup ord w = none) →
      (∀ x ∈ q, dlookup ord x = none ∧ dlookup ind x = none) →
      (∀ w c, dlookup ind w = some c → 1 ≤ c ∧ remaining ord w E ≤ c) →
      (∀ w, dlookup ind w = none → remaining ord w E = 0) →
      (∀ u w rw, edgeIn E u w → dlookup ord w = some rw →
        ∃ ru, dlookup ord u = some ru ∧ rw < ru) →
      (∀ x ∈ q, ∀ u l, dlookup E u = some l → x ∈ l → (dlookup ord u).isSome) →
      ∀ u w rw, edgeIn E u w → dlookup ordF w = some rw →
        ∃ ru, dlookup ordF u = some ru ∧ rw < ru := by
  intro fuel
  induction fuel with
  | zero =>
    intro q ind ord vis ordF hrun _ _ _ _ _ _ _ J6 _
    cases q with
    | nil => simp only [oddLoop] at hrun; cases hrun; exact J6
    | cons a q0 => simp only [oddLoop] at hrun; cases hrun
  | succ fuel ih =>
    intro q ind ord vis ordF hrun hndi hndq J1 D1 J2 J5 J5n J6 J7
    cases q with
    | nil => simp only [oddLoop] at hrun; cases hrun; exact J6
    | cons a q0 =>
      simp only [oddLoop] at hrun
      cases hqs : sortByKey (labelKey labels) (a :: q0) with
      | error e => simp only [hqs] at hrun; cases hrun
      | ok qs =>
        simp only [hqs] at hrun
        have hperm := sortByKey_perm hqs
        cases qs with
        | nil => cases hrun; exact J6
        | cons e qrest =>
          have hndqs : (e :: qrest).Nodup := (hperm.nodup_iff).mpr hndq
          have hmemE : e ∈ a :: q0 := hperm.subset (List.mem_cons_self _ _)
          have hsub : ∀ x ∈ qrest, x ∈ a :: q0 :=
            fun x hx => hperm.subset (List.mem_cons_of_mem _ hx)
          rcases J2 e hmemE with ⟨horde, hinde⟩
          cases hEe : dlookup E e with
          | none => simp only [hEe] at hrun; cases hrun
          | some ce =>
            simp only [hEe] at hrun
            rcases hpc : processChildren ce qrest ind with ⟨q2, ind2⟩
            rw [hpc] at hrun
            have hrem : ∀ w, remaining (dinsert ord e vis) w E + ce.count w =
                remaining ord w E :=
              fun w => remaining_dinsert ord e vis w ce E hE horde hEe
            have hqrestnd : qrest.Nodup := (List.nodup_cons.mp hndqs).2
            have henotin : e ∉ qrest := (List.nodup_cons.mp hndqs).1
            have hqrest_ind : ∀ x ∈ qrest, dlookup ind x = none :=
              fun x hx => (J2 x (hsub x hx)).2
            rcases processChildren_spec (fun w => remaining (dinsert ord e vis) w E)
              ce qrest ind q2 ind2 hpc hndi hqrestnd hqrest_ind
              (by
                intro w c hw
                rcases J5 w c hw with ⟨h1, h2⟩
                refine ⟨h1, ?_⟩
                show remaining (dinsert ord e vis) w E + ce.count w ≤ c
                rw [hrem w]
                exact h2)
              (by
                intro w hw
                show remaining (dinsert ord e vis) w E + ce.count w = 0
                have h1 := J5n w hw
                have h2 := hrem w
                omega) with
              ⟨ihnd2, ihq2nd, ihS, ihN, ihM, ihQ, ihQnone⟩
            apply ih q2 ind2 (dinsert ord e vis) (vis - 1) ordF hrun ihnd2 ihq2nd
            · intro w r hw
              by_cases hwe : w = e
              · subst hwe
                rw [dlookup_dinsert_self] at hw
                cases hw
                omega
              · rw [dlookup_dinsert_ne ord e w vis hwe] at hw
                have := J1 w r hw
                omega
            · intro w hw
              rcases Option.isSome_iff_exists.mp hw with ⟨c2, hc2⟩
              rcases ihS w c2 hc2 with ⟨_, hsome⟩
              have hor : dlookup ord w = none := D1 w hsome
              have hwe : w ≠ e := by
                intro hh
                rw [hh, hinde] at hsome
                cases hsome
              rw [dlookup_dinsert_ne ord e w vis hwe]
              exact hor
            · intro x hx
              refine ⟨?_, ihQnone x hx⟩
              rcases ihQ x hx with hx2 | ⟨hsome, _⟩
              · have hor : dlookup ord x = none := (J2 x (hsub x hx2)).1
                have hxe : x ≠ e := fun hh => henotin (hh ▸ hx2)
                rw [dlookup_dinsert_ne ord e x vis hxe]
                exact hor
              · have hor : dlookup ord x = none := D1 x hsome
                have hxe : x ≠ e := by
                  intro hh
                  rw [hh, hinde] at hsome
                  cases hsome
                rw [dlookup_dinsert_ne ord e x vis hxe]
                exact hor
            · intro w c hw
              exact (ihS w c hw).1
            · intro w hw
              exact ihN w hw
            · intro u w rw0 hedge hw
              by_cases hwe : w = e
              · rw [hwe, dlookup_dinsert_self] at hw
                cases hw
                rcases hedge with ⟨l, hEu, hwl⟩
                rw [hwe] at hwl
                have husome : (dlookup ord u).isSome := J7 e hmemE u l hEu hwl
                rcases Option.isSome_iff_exists.mp husome with ⟨ru, hru⟩
                have hue : u ≠ e := by
                  intro hh
                  rw [hh, horde] at hru
                  cases hru
                exact ⟨ru, by rw [dlookup_dinsert_ne ord e u _ hue]; exact hru,
                  J1 u ru hru⟩
              · rw [dlookup_dinsert_ne ord e w vis hwe] at hw
                rcases J6 u w rw0 hedge hw with ⟨ru, hru, hlt⟩
                have hue : u ≠ e := by
                  intro hh
                  rw [hh, horde] at hru
                  cases hru
                exact ⟨ru, by rw [dlookup_dinsert_ne ord e u _ hue]; exact hru, hlt⟩
            · intro x hx u l hEu hxl
              rcases ihQ x hx with hx2 | ⟨_, hnone2⟩
              · have husome : (dlookup ord u).isSome := J7 x (hsub x hx2) u l hEu hxl
                rcases Option.isSome_iff_exists.mp husome with ⟨ru, hru⟩
                have hue : u ≠ e := by
                  intro hh
                  rw [hh, horde] at hru
                  cases hru
                rw [dlookup_dinsert_ne ord e u _ hue]
                exact husome
              · have hz : remaining (dinsert ord e vis) x E = 0 := ihN x hnone2
                exact remaining_zero_parents (dinsert ord e vis) x E hz u l hEu hxl

/-- The per-list edge sorting of `odd` only permutes each child list. -/
theorem sortEdges_mem (ordering : List (Nat × Int)) (labels : List (Nat × String)) :
    ∀ (E E2 : List (Nat × List Nat)), sortEdges ordering labels E = .ok E2 →
      ∀ u l2, dlookup E2 u = some l2 →
        ∃ l, dlookup E u = some l ∧ ∀ w, w ∈ l2 ↔ w ∈ l := by
  intro E
  induction E with
  | nil =>
    intro E2 hrun u l2 hl
    simp only [sortEdges] at hrun
    cases hrun
    cases hl
  | cons p rest ih =>
    intro E2 hrun u l2 hl
    rcases p with ⟨k, l⟩
    simp only [sortEdges] at hrun
    cases hs : sortByKey (rankLabelKey ordering labels) l with
    | error e => rw [hs] at hrun; cases hrun
    | ok lk =>
      rw [hs] at hrun
      cases hr : sortEdges ordering labels rest with
      | error e => rw [hr] at hrun; cases hrun
      | ok rest2 =>
        rw [hr] at hrun
        simp only [Except.map] at hrun
        cases hrun
        by_cases hk : k = u
        · subst hk
          simp only [dlookup, if_pos rfl] at hl ⊢
          cases hl
          exact ⟨l, rfl, fun w => sortByKey_mem hs w⟩
        · simp only [dlookup, if_neg hk] at hl ⊢
          exact ih rest2 hr u l2 hl

/-- Inverting the `(ordering[x], labels[x])` sort key. -/
theorem rankLabelKey_eq {ordering : List (Nat × Int)} {labels : List (Nat × String)}
    {x : Nat} {r : Int} {s : String}
    (h : rankLabelKey ordering labels x = some (r, s)) :
    dlookup ordering x = some r ∧ dlookup labels x = some s := by
  unfold rankLabelKey at h
  cases h1 : dlookup ordering x with
  | none => rw [h1] at h; cases h
  | some r2 =>
    rw [h1] at h
    cases h2 : dlookup labels x with
    | none => rw [h2] at h; cases h
    | some s2 =>
      rw [h2] at h
      have h3 : (r2, s2) = (r, s) := Option.some.inj h
      have hr : r2 = r := congrArg Prod.fst h3
      have hs : s2 = s := congrArg Prod.snd h3
      exact ⟨congrArg some hr, congrArg some hs⟩

/-- Structure of a successful keyed sort: the output is the second
projection of a key-sorted pair list covering the input. -/
theorem sortByKey_exposed {keyOf : Nat → Option (Int × String)} {xs ys : List Nat}
    (h : sortByKey keyOf xs = .ok ys) :
    ∃ ps : List ((Int × String) × Nat),
      ys = ps.map Prod.snd ∧
      ps.Pairwise (fun p q => pairLe p q = true) ∧
      (∀ p ∈ ps, keyOf p.2 = some p.1) ∧
      (∀ x ∈ xs, ∃ k, (k, x) ∈ ps) := by
  unfold sortByKey at h
  cases hr : resolveKeyed keyOf xs with
  | error e => rw [hr] at h; cases h
  | ok lres =>
    rw [hr] at h
    simp only [Except.map] at h
    cases h
    rcases resolveKeyed_spec hr with ⟨hmap, hall⟩
    refine ⟨insSort pairLe lres, rfl, ?_, ?_, ?_⟩
    · exact insSort_pairwise pairLe
        (fun p q => keyLeB_total p.1 q.1)
        (fun p q r h1 h2 => keyLeB_trans h1 h2)
        lres
    · intro p hp
      exact hall p ((insSort_perm pairLe lres).subset hp)
    · intro x hx
      rw [← hmap] at hx
      rcases List.mem_map.mp hx with ⟨p, hp, hpx⟩
      exact ⟨p.1, (insSort_perm pairLe lres).mem_iff.mpr (by
        rw [show (p.1, x) = p from by rw [← hpx]]
        exact hp)⟩

/-- In a key-sorted duplicate-free pair list, an element whose key is
strictly below another element's key appears strictly earlier. -/
theorem sorted_pairs_index_lt :
    ∀ ps : List ((Int × String) × Nat),
      ps.Pairwise (fun p q => pairLe p q = true) →
      (ps.map Prod.snd).Nodup →
      ∀ p q, p ∈ ps → q ∈ ps → keyLeB q.1 p.1 = false →
        (ps.map Prod.snd).indexOf p.2 < (ps.map Prod.snd).indexOf q.2 := by
  intro ps
  induction ps with
  | nil => intro _ _ p q hp; cases hp
  | cons hd tl ih =>
    intro hpw hnd p q hp hq hfalse
    rcases List.pairwise_cons.mp hpw with ⟨hhd, htl⟩
    have hnd3 : (hd.2 :: tl.map Prod.snd).Nodup := by
      simpa only [List.map_cons] using hnd
    rcases List.nodup_cons.mp hnd3 with ⟨hhd2, hnd2⟩
    rcases List.mem_cons.mp hp with hp1 | hp1
    · rcases List.mem_cons.mp hq with hq1 | hq1
      · exfalso
        rw [hp1, hq1, keyLeB_refl] at hfalse
        cases hfalse
      · have hqsne : q.2 ≠ hd.2 := by
          intro hh
          exact hhd2 (hh ▸ List.mem_map.mpr ⟨q, hq1, rfl⟩)
        simp only [List.map_cons]
        rw [hp1]
        rw [List.indexOf_cons_self]
        rw [List.indexOf_cons_ne _ (fun hh => hqsne hh.symm)]
        omega
    · rcases List.mem_cons.mp hq with hq1 | hq1
      · exfalso
        have := hhd p hp1
        rw [← hq1] at this
        simp only [pairLe] at this
        rw [this] at hfalse
        cases hfalse
      · have hpsne : p.2 ≠ hd.2 := by
          intro hh
          exact hhd2 (hh ▸ List.mem_map.mpr ⟨p, hp1, rfl⟩)
        have hqsne : q.2 ≠ hd.2 := by
          intro hh
          exact hhd2 (hh ▸ List.mem_map.mpr ⟨q, hq1, rfl⟩)
        simp only [List.map_cons]
        rw [List.indexOf_cons_ne _ (fun hh => hpsne hh.symm)]
        rw [List.indexOf_cons_ne _ (fun hh => hqsne hh.symm)]
        have := ih htl hnd2 p q hp1 hq1 hfalse
        omega

/-- On a successful run of `odd` over a vertex list, every ranked vertex
has all of its in-edge sources ranked strictly higher, and the output
fields are as constructed. -/
theorem odd_ranks_parents_higher (vl : List Nat) (E : List (Nat × List Nat))
    (labels : List (Nat × String)) (fuel : Nat) (o : OddOut)
    (hE : (dkeys E).Nodup) (hvl : vl.Nodup)
    (hodd : odd (PyVerts.vset vl) E labels fuel = .ok o) :
    (∀ u w rw, edgeIn E u w → dlookup o.ordering w = some rw →
      ∃ ru, dlookup o.ordering u = some ru ∧ rw < ru) ∧
    sortEdges o.ordering labels E = .ok o.edges ∧
    o.vertices = vl ∧ o.labels = labels := by
  simp only [odd, odd.oddBody] at hodd
  cases hl : oddLoop labels E fuel
      (vl.filter (fun x => !(dcontains (computeIndegrees E) x)))
      (computeIndegrees E) [] (vl.length : Int) with
  | error e => simp only [hl] at hodd; cases hodd
  | ok ordering =>
    simp only [hl] at hodd
    cases hs : sortEdges ordering labels E with
    | error e => simp only [hs] at hodd; cases hodd
    | ok E2 =>
      simp only [hs] at hodd
      cases hodd
      have hind : ∀ x, dcontains (computeIndegrees E) x = false →
          dlookup (computeIndegrees E) x = none := by
        intro x hx
        simp only [dcontains] at hx
        cases hdx : dlookup (computeIndegrees E) x with
        | none => rfl
        | some c => rw [hdx] at hx; cases hx
      have hmain := oddLoop_ranks_parents_higher labels E hE fuel
        (vl.filter (fun x => !(dcontains (computeIndegrees E) x)))
        (computeIndegrees E) [] (vl.length : Int) ordering hl
        (dkeys_nodup_computeIndegrees E)
        (hvl.filter _)
        (by intro w r hw; simp only [dlookup] at hw; cases hw)
        (by intro w _; rfl)
        (by
          intro x hx
          rcases List.mem_filter.mp hx with ⟨_, hpx⟩
          refine ⟨rfl, hind x ?_⟩
          simpa using hpx)
        (by
          intro w c hw
          rw [dlookup_computeIndegrees] at hw
          by_cases hr : remaining [] w E = 0
          · rw [if_pos hr] at hw; cases hw
          · rw [if_neg hr] at hw
            have hc : remaining [] w E = c := Option.some.inj hw
            constructor
            · omega
            · omega)
        (by
          intro w hw
          rw [dlookup_computeIndegrees] at hw
          by_cases hr : remaining [] w E = 0
          · exact hr
          · rw [if_neg hr] at hw; cases hw)
        (by intro u w rw2 _ hw; simp only [dlookup] at hw; cases hw)
        (by
          intro x hx u l hEu hxl
          rcases List.mem_filter.mp hx with ⟨_, hpx⟩
          have hxnone : dlookup (computeIndegrees E) x = none :=
            hind x (by simpa using hpx)
          have hrz : remaining [] x E = 0 := by
            have := dlookup_computeIndegrees E x
            rw [hxnone] at this
            by_cases hr : remaining [] x E = 0
            · exact hr
            · rw [if_neg hr] at this; cases this
          exact remaining_zero_parents [] x E hrz u l hEu hxl)
      exact ⟨hmain, hs, rfl, rfl⟩

/-- C4: during canonicalization, the vertices (ordered by the Orderer's
rank with label tie-break) are visited so that for every edge u -> w of
the sorted edge lists the child w is visited strictly before its parent
u. -/
theorem c4_children_visited_before_parents
    (vl : List Nat) (E : List (Nat × List Nat)) (labels : List (Nat × String))
    (fuel : Nat) (o : OddOut) (hout : HashOut)
    (hE : (dkeys E).Nodup) (hvl : vl.Nodup)
    (hodd : odd (PyVerts.vset vl) E labels fuel = .ok o)
    (hhash : hash_trees o = .ok hout) :
    ∀ u w l, dlookup o.edges u = some l → w ∈ l → u ∈ vl → w ∈ vl →
      hout.v_ordered.indexOf w < hout.v_ordered.indexOf u := by
  rcases odd_ranks_parents_higher vl E labels fuel o hE hvl hodd with
    ⟨hranks, hse, hverts, _⟩
  simp only [hash_trees] at hhash
  cases hsort : sortByKey (rankLabelKey o.ordering o.labels) o.vertices with
  | error e => simp only [hsort] at hhash; cases hhash
  | ok vord =>
    simp only [hsort] at hhash
    cases hloop : hashLoop o.edges o.labels vord [] [] with
    | error e => simp only [hloop] at hhash; cases hhash
    | ok pr =>
      rcases pr with ⟨verts, hmap⟩
      simp only [hloop] at hhash
      cases hhash
      rcases sortByKey_exposed hsort with ⟨ps, hys, hpw, hkeys, hcover⟩
      have hvperm : List.Perm vord o.vertices := sortByKey_perm hsort
      have hvnd : vord.Nodup := hvperm.nodup_iff.mpr (by rw [hverts]; exact hvl)
      intro u w l hlu hwl hu hw
      rcases hcover u (by rw [hverts]; exact hu) with ⟨ku, hku⟩
      rcases hcover w (by rw [hverts]; exact hw) with ⟨kw, hkw⟩
      have hkuval : rankLabelKey o.ordering o.labels u = some ku := hkeys (ku, u) hku
      have hkwval : rankLabelKey o.ordering o.labels w = some kw := hkeys (kw, w) hkw
      rcases ku with ⟨ru0, su⟩
      rcases kw with ⟨rw0, sw⟩
      rcases rankLabelKey_eq hkuval with ⟨hru0, _⟩
      rcases rankLabelKey_eq hkwval with ⟨hrw0, _⟩
      rcases sortEdges_mem o.ordering labels E o.edges hse u l hlu with
        ⟨l0, hEu, hiff⟩
      have hedge : edgeIn E u w := ⟨l0, hEu, (hiff w).mp hwl⟩
      rcases hranks u w rw0 hedge hrw0 with ⟨ru, hru, hlt⟩
      have hrueq : ru = ru0 := by
        rw [hru] at hru0
        exact Option.some.inj hru0
      have hfalse : keyLeB (ru0, su) (rw0, sw) = false :=
        keyLeB_false_of_rank_lt (by show rw0 < ru0; omega)
      have hidx := sorted_pairs_index_lt ps hpw (by rw [← hys]; exact hvnd)
        ((rw0, sw), w) ((ru0, su), u) hkw hku hfalse
      show vord.indexOf w < vord.indexOf u
      rw [hys]
      exact hidx

/-- Concrete star-graph instance of the C4 child-before-parent order:
leaf 2 is visited before the root 0 along the sorted edge `0 -> 2`. -/
theorem c4_witness :
    odd (PyVerts.vset [0, 1, 2]) c4E c4L 20 = .ok c4O ∧
    hash_trees c4O = .ok c4H ∧
    c4H.v_ordered.indexOf 2 < c4H.v_ordered.indexOf 0 :=
  ⟨by decide, by decide,
   c4_children_visited_before_parents [0, 1, 2] c4E c4L 20 c4O c4H
     (by decide) (by decide) (by decide) (by decide)
     0 2 [2, 1] (by decide) (by decide) (by decide) (by decide)⟩

theorem hreadV_hwriteV (hp : Heap) (r : Ref) (d : List (Nat × (Freq × Freq × String))) :
    hreadV (hwriteV hp r d) r = d := by
  simp [hreadV, hwriteV, dlookup_dinsert_self]

theorem hreadH_hwriteH (hp : Heap) (r : Ref) (d : List (String × List Nat)) :
    hreadH (hwriteH hp r d) r = d := by
  simp [hreadH, hwriteH, dlookup_dinsert_self]

theorem hreadE_hwriteE (hp : Heap) (r : Ref) (d : List (Nat × List Nat)) :
    hreadE (hwriteE hp r d) r = d := by
  simp [hreadE, hwriteE, dlookup_dinsert_self]

theorem hreadL_hwriteL (hp : Heap) (r : Ref) (d : List (Nat × String)) :
    hreadL (hwriteL hp r d) r = d := by
  simp [hreadL, hwriteL, dlookup_dinsert_self]

/-- The store-passing merge loop simulates the value-level loop: started
on a heap whose cells at the argument references hold the Big DAG's four
dictionaries, it succeeds exactly when the value-level loop does, and
leaves the updated dictionaries in the same cells. -/
theorem bigLoopSt_sim (dagArg : SingleDag) (merge : Bool) (nf : Nat) (refs : BigRefs) :
    ∀ (qs : List Nat) (hp : Heap) (B B2 : BigDag) (idx idx2 : Nat),
      hreadV hp refs.rv = B.D_vertices →
      hreadH hp refs.rh = B.D_hash_map →
      hreadE hp refs.re = B.D_edges →
      hreadL hp refs.rl = B.D_labels →
      bigLoop dagArg merge nf qs B idx = .ok (B2, idx2) →
      ∃ hp2, bigLoopSt dagArg merge nf refs qs hp idx = .ok (hp2, idx2) ∧
        hreadV hp2 refs.rv = B2.D_vertices ∧
        hreadH hp2 refs.rh = B2.D_hash_map ∧
        hreadE hp2 refs.re = B2.D_edges ∧
        hreadL hp2 refs.rl = B2.D_labels := by
  intro qs
  induction qs with
  | nil =>
    intro hp B B2 idx idx2 hv hh he hl hrun
    simp only [bigLoop] at hrun
    cases hrun
    exact ⟨hp, rfl, hv, hh, he, hl⟩
  | cons q rest ih =>
    intro hp B B2 idx idx2 hv hh he hl hrun
    simp only [bigLoop] at hrun
    cases hval : dlookup dagArg.vertices q with
    | none => simp only [hval] at hrun; cases hrun
    | some val =>
      simp only [hval] at hrun
      cases hkey : dlookup B.D_hash_map val.2.2 with
      | some nl =>
        simp only [hkey] at hrun
        cases hhd : nl.head? with
        | none => simp only [hhd] at hrun; cases hrun
        | some node =>
          simp only [hhd] at hrun
          cases hcur : dlookup B.D_vertices node with
          | none => simp only [hcur] at hrun; cases hrun
          | some cur =>
            simp only [hcur] at hrun
            cases hfr : (if merge then freqAdd cur.2.1 val.2.1
                         else freqAddLast cur.2.1 val.2.1) with
            | error e => simp only [hfr] at hrun; cases hrun
            | ok fr2 =>
              simp only [hfr] at hrun
              rcases ih (hwriteV hp refs.rv (dinsert B.D_vertices node (cur.1, fr2, cur.2.2)))
                  { B with D_vertices := dinsert B.D_vertices node (cur.1, fr2, cur.2.2) }
                  B2 idx idx2
                  (hreadV_hwriteV _ _ _) hh he hl hrun with
                ⟨hp2, hst, h1, h2, h3, h4⟩
              refine ⟨hp2, ?_, h1, h2, h3, h4⟩
              simp only [bigLoopSt, hval, hh, hkey, hhd, hv, hcur, hfr]
              exact hst
      | none =>
        simp only [hkey] at hrun
        cases hlb : dlookup dagArg.labels q with
        | none => simp only [hlb] at hrun; cases hrun
        | some lb =>
          simp only [hlb] at hrun
          cases hch : dlookup dagArg.edges q with
          | none => simp only [hch] at hrun; cases hrun
          | some children =>
            simp only [hch] at hrun
            cases hbe : buildEdges dagArg.vertices B.D_hash_map children [] with
            | error e => simp only [hbe] at hrun; cases hrun
            | ok d_edges =>
              simp only [hbe] at hrun
              cases hfq : (if merge then .ok val.2.1
                           else match val.2.1 with
                                | .scalar n => .ok (.vec (List.replicate (nf - 1) 0 ++ [n]))
                                | .vec _ => .error .typeError :
                           Except PyExc Freq) with
              | error e => simp only [hfq] at hrun; cases hrun
              | ok freq =>
                simp only [hfq] at hrun
                rcases ih
                    (hwriteL
                      (hwriteH
                        (hwriteE
                          (hwriteV hp refs.rv (dinsert B.D_vertices idx (val.2.1, freq, val.2.2)))
                          refs.re (dinsert B.D_edges idx d_edges))
                        refs.rh (dinsert B.D_hash_map val.2.2 [idx]))
                      refs.rl (dinsert B.D_labels idx lb))
                    { D_vertices := dinsert B.D_vertices idx (val.2.1, freq, val.2.2),
                      D_hash_map := dinsert B.D_hash_map val.2.2 [idx],
                      D_edges := dinsert B.D_edges idx d_edges,
                      D_labels := dinsert B.D_labels idx lb }
                    B2 (idx + 1) idx2
                    (by simp [hreadV, hwriteV, hwriteE, hwriteH, hwriteL, dlookup_dinsert_self])
                    (by simp [hreadH, hwriteV, hwriteE, hwriteH, hwriteL, dlookup_dinsert_self])
                    (by simp [hreadE, hwriteV, hwriteE, hwriteH, hwriteL, dlookup_dinsert_self])
                    (by simp [hreadL, hwriteV, hwriteE, hwriteH, hwriteL, dlookup_dinsert_self])
                    hrun with
                  ⟨hp2, hst, h1, h2, h3, h4⟩
                refine ⟨hp2, ?_, h1, h2, h3, h4⟩
                simp only [bigLoopSt, hval, hh, hkey, hlb, hch, hbe, hfq, hv, he, hl]
                exact hst

/-- C10: on a non-None Big DAG whose four dictionaries live in heap cells
reachable from the argument references, `big_dag_append` returns the very
same references with the cells overwritten in place by the merged
dictionaries; the caller's previous Big-DAG value is not preserved. -/
theorem c10_fold_returns_same_refs_mutated (dagArg : SingleDag) (refs : BigRefs)
    (mf : Bool) (hp : Heap) (B B2 : BigDag)
    (hv : hreadV hp refs.rv = B.D_vertices)
    (hh : hreadH hp refs.rh = B.D_hash_map)
    (he : hreadE hp refs.re = B.D_edges)
    (hl : hreadL hp refs.rl = B.D_labels)
    (hrun : big_dag_append dagArg (some B) mf = .ok B2) :
    ∃ hp2, big_dag_append_st dagArg refs mf hp = .ok (refs, hp2) ∧
      hreadV hp2 refs.rv = B2.D_vertices ∧
      hreadH hp2 refs.rh = B2.D_hash_map ∧
      hreadE hp2 refs.re = B2.D_edges ∧
      hreadL hp2 refs.rl = B2.D_labels := by
  simp only [big_dag_append] at hrun
  cases mf with
  | true =>
    simp only [if_true_eq] at hrun
    cases hloop : bigLoop dagArg true 1 dagArg.v_ordered B B.D_vertices.length with
    | error e => simp only [hloop] at hrun; cases hrun
    | ok pr =>
      rcases pr with ⟨B2x, i2⟩
      simp only [hloop] at hrun
      cases hrun
      rcases bigLoopSt_sim dagArg true 1 refs dagArg.v_ordered hp B B2
          B.D_vertices.length i2 hv hh he hl hloop with
        ⟨hp2, hst, h1, h2, h3, h4⟩
      refine ⟨hp2, ?_, h1, h2, h3, h4⟩
      simp only [big_dag_append_st, hv, eq_self_iff_true, if_true, if_true_eq, hst]
  | false =>
    simp only [Bool.false_eq_true, if_false] at hrun
    cases hpad : padAll B.D_vertices with
    | error e => simp only [hpad] at hrun; cases hrun
    | ok Dv =>
      simp only [hpad] at hrun
      cases hloop : bigLoop dagArg false (nfOf Dv) dagArg.v_ordered
          { B with D_vertices := Dv } B.D_vertices.length with
      | error e => simp only [hloop] at hrun; cases hrun
      | ok pr =>
        rcases pr with ⟨B2x, i2⟩
        simp only [hloop] at hrun
        cases hrun
        rcases bigLoopSt_sim dagArg false (nfOf Dv) refs dagArg.v_ordered
            (hwriteV hp refs.rv Dv) { B with D_vertices := Dv } B2
            B.D_vertices.length i2
            (hreadV_hwriteV _ _ _) hh he hl hloop with
          ⟨hp2, hst, h1, h2, h3, h4⟩
        refine ⟨hp2, ?_, h1, h2, h3, h4⟩
        simp only [big_dag_append_st, hv, Bool.false_eq_true, if_false, hpad, hst]

/-- Concrete instance of the in-place mutation theorem: folding `dPair`
onto the heap-allocated `b1Pair` returns the same references, the cells
now hold the doubled Big DAG `b2Pair`, and the old vertex dict value is
gone. -/
theorem c10_witness :
    hreadV c10Hp c10Refs.rv = b1Pair.D_vertices ∧
    big_dag_append dPair (some b1Pair) true = .ok b2Pair ∧
    b2Pair.D_vertices ≠ b1Pair.D_vertices ∧
    (∃ hp2, big_dag_append_st dPair c10Refs true c10Hp = .ok (c10Refs, hp2) ∧
      hreadV hp2 c10Refs.rv = b2Pair.D_vertices ∧
      hreadH hp2 c10Refs.rh = b2Pair.D_hash_map ∧
      hreadE hp2 c10Refs.re = b2Pair.D_edges ∧
      hreadL hp2 c10Refs.rl = b2Pair.D_labels) :=
  ⟨by decide, by decide, by decide,
   c10_fold_returns_same_refs_mutated dPair c10Refs true c10Hp b1Pair b2Pair
     (by decide) (by decide) (by decide) (by decide) (by decide)⟩

end OddSth
